import Mathlib

/-!
Verification of jgrazian/discord-scraper (src/main.rs) against its
natural-language specification.

The Rust program crawls the full message history of a set of Discord channels
through the paginated REST API and persists channels, users and messages into a
SQLite store with INSERT OR IGNORE semantics.  This file gives a shallow
embedding of the program:

* message/channel/user ids are modelled as `Nat` (Discord snowflakes; the code
  only passes them around, and the API orders them numerically);
* the SQLite tables are modelled as lists of rows, with `INSERT OR IGNORE`
  appending a row only when no row with the same primary key exists;
* the HTTP transport is modelled by a script of responses (for `send_request`)
  and by a pure page-serving function (for the pagination loop);
* `f64` arithmetic on the `Retry-After` header is modelled over `ℚ`;
* stateful functions return the new store together with the lines they print;
  the crawl additionally returns a trace of events (inserts and page fetches).
-/

namespace DiscordScraper

/-- Structure `DiscordError` of src/main.rs: the decoded JSON error payload
of a non-success response. -/
structure DiscordError where
  message : String
  code : Nat
deriving DecidableEq, Repr

/-- One HTTP response as `send_request` observes it.  `retryAfterHeader` is the
raw value of the `Retry-After` header when present.  `decodedError` models the
result of `serde_json::from_str::<DiscordError>` applied to the body (JSON
decoding is an external collaborator of the program). -/
structure HttpResponse where
  status : Nat
  retryAfterHeader : Option String
  body : String
  decodedError : Option DiscordError
deriving DecidableEq, Repr

/-- Reads a nonempty all-digit character list as a natural number. -/
def natOfDigits (cs : List Char) : Option Nat :=
  if cs.isEmpty then none
  else cs.foldl
    (fun acc c => acc.bind (fun n => if c.isDigit then some (10 * n + (c.toNat - 48)) else none))
    (some 0)

/-- Splits a character list at the first dot, if any. -/
def splitAtDot : List Char → List Char × Option (List Char)
  | [] => ([], none)
  | c :: cs =>
    if c = '.' then ([], some cs)
    else
      let r := splitAtDot cs
      (c :: r.1, r.2)

/-- Modelled from the spec: the remote API signals throttling "via HTTP 429
with a `Retry-After` header (seconds, float)".  This models Rust's
`str::parse::<f64>` on such header values, over `ℚ`: a digit string with an
optional fractional part after a dot. -/
def parseRetryAfter (s : String) : Option ℚ :=
  match splitAtDot s.data with
  | (w, none) => (natOfDigits w).map (fun n => (n : ℚ))
  | (w, some f) =>
    match natOfDigits w, natOfDigits f with
    | some a, some b => some ((a : ℚ) + (b : ℚ) / (10 : ℚ) ^ f.length)
    | _, _ => none

/-- Constant `RETRY_PAD` of `send_request` (0.1 seconds). -/
def RETRY_PAD : ℚ := 1 / 10

/-- Result of a `send_request` call.  `panicked` models the `unwrap()` on the
`Retry-After` header lookup failing; `headerError` the `?` on `to_str`/`parse`;
`exhausted` means the response script ran out (the model's fuel). -/
inductive SendOutcome where
  | ok (body : String)
  | apiError (msg : String)
  | headerError
  | decodeError
  | panicked
  | exhausted
deriving DecidableEq, Repr

/-- Function `send_request` of src/main.rs.  The script lists the successive
responses the server gives for this URL; each (re-)issue of the request
consumes one.  The returned list collects the sleeps performed (in seconds),
in order. -/
def send_request (url : String) : List HttpResponse → List ℚ × SendOutcome
  | [] => ([], .exhausted)
  | r :: rest =>
    if r.status = 200 then ([], .ok r.body)
    else if r.status = 429 then
      match r.retryAfterHeader with
      | none => ([], .panicked)
      | some h =>
        match parseRetryAfter h with
        | none => ([], .headerError)
        | some t =>
          let out := send_request url rest
          ((t + RETRY_PAD) :: out.1, out.2)
    else
      match r.decodedError with
      | none => ([], .decodeError)
      | some e => ([], .apiError ("While executing request " ++ url ++ ": " ++ e.message))

/-- The sleep duration the 429 branch computes for a response, when defined:
the parsed `Retry-After` value. -/
def retryDelay (r : HttpResponse) : ℚ :=
  (r.retryAfterHeader.bind parseRetryAfter).getD 0

/-- C4: a 429 response with a well-formed `Retry-After` header makes
`send_request` sleep for exactly the parsed delay plus the 0.1s pad and then
re-issue the identical request; this holds for any number of consecutive
throttle responses (no retry ceiling), and the eventual outcome is whatever the
retried request produces — a 429 is never surfaced as an error. -/
theorem c4_throttle_backoff (url : String) (throttles rest : List HttpResponse)
    (h : ∀ r ∈ throttles, r.status = 429 ∧ (r.retryAfterHeader.bind parseRetryAfter).isSome) :
    send_request url (throttles ++ rest)
      = (throttles.map (fun r => retryDelay r + RETRY_PAD) ++ (send_request url rest).1,
         (send_request url rest).2)
    ∧ ∀ r ∈ throttles, retryDelay r + RETRY_PAD ≥ retryDelay r + 1 / 10 := by
  constructor
  · induction throttles with
    | nil => simp
    | cons r ts ih =>
      obtain ⟨h429, hsome⟩ := h r (List.mem_cons_self r ts)
      match hh : r.retryAfterHeader with
      | none => rw [hh] at hsome; simp at hsome
      | some hd =>
        match hp : parseRetryAfter hd with
        | none => rw [hh] at hsome; simp [Option.bind, hp] at hsome
        | some t =>
          have hne : ¬ r.status = 200 := by rw [h429]; norm_num
          have h' := ih (fun x hx => h x (List.mem_cons_of_mem r hx))
          have hdel : retryDelay r = t := by simp [retryDelay, hh, hp]
          simp only [List.cons_append, send_request, if_neg hne, if_pos h429, hh, hp,
            List.map_cons, List.append_eq, hdel, h']
  · intro r _
    exact le_refl _

/-- C4 witness: a concrete 429 with `Retry-After: 2.5` followed by a 200. -/
theorem c4_throttle_backoff_witness :
    send_request "u" ([⟨429, some "2.5", "", none⟩] ++ [⟨200, none, "ok", none⟩])
      = ([⟨429, some "2.5", "", none⟩].map
            (fun r => retryDelay r + RETRY_PAD) ++ (send_request "u" [⟨200, none, "ok", none⟩]).1,
         (send_request "u" [⟨200, none, "ok", none⟩]).2)
    ∧ ∀ r ∈ [(⟨429, some "2.5", "", none⟩ : HttpResponse)],
        retryDelay r + RETRY_PAD ≥ retryDelay r + 1 / 10 :=
  c4_throttle_backoff "u" [⟨429, some "2.5", "", none⟩] [⟨200, none, "ok", none⟩] (by decide)

/-- C5: for a response whose status is neither 200 nor 429 and whose body
decodes as a `DiscordError`, `send_request` fails with a message embedding the
URL and the decoded message, performs no sleep, and does not retry (the result
does not depend on any further scripted responses). -/
theorem c5_api_error (url : String) (r : HttpResponse) (rest : List HttpResponse)
    (e : DiscordError) (h200 : r.status ≠ 200) (h429 : r.status ≠ 429)
    (hd : r.decodedError = some e) :
    send_request url (r :: rest)
      = ([], .apiError ("While executing request " ++ url ++ ": " ++ e.message))
    ∧ (∀ rest', send_request url (r :: rest') = send_request url (r :: rest))
    ∧ (∃ a b, "While executing request " ++ url ++ ": " ++ e.message = a ++ url ++ b)
    ∧ (∃ c, "While executing request " ++ url ++ ": " ++ e.message = c ++ e.message) := by
  refine ⟨?_, ?_, ?_, ?_⟩
  · simp only [send_request, if_neg h200, if_neg h429, hd]
  · intro rest'
    simp only [send_request, if_neg h200, if_neg h429, hd]
  · exact ⟨"While executing request ", ": " ++ e.message, by rw [String.append_assoc]⟩
  · exact ⟨"While executing request " ++ url ++ ": ", rfl⟩

/-- C5 witness: a concrete 404 whose body decodes as an error object. -/
theorem c5_api_error_witness :
    send_request "u" ([⟨404, none, "x", some ⟨"Unknown Channel", 10003⟩⟩])
      = ([], .apiError ("While executing request " ++ "u" ++ ": " ++ "Unknown Channel"))
    ∧ (∀ rest', send_request "u" (⟨404, none, "x", some ⟨"Unknown Channel", 10003⟩⟩ :: rest')
        = send_request "u" (⟨404, none, "x", some ⟨"Unknown Channel", 10003⟩⟩ :: []))
    ∧ (∃ a b, "While executing request " ++ "u" ++ ": " ++ "Unknown Channel" = a ++ "u" ++ b)
    ∧ (∃ c, "While executing request " ++ "u" ++ ": " ++ "Unknown Channel"
        = c ++ "Unknown Channel") :=
  c5_api_error "u" ⟨404, none, "x", some ⟨"Unknown Channel", 10003⟩⟩ [] ⟨"Unknown Channel", 10003⟩
    (by decide) (by decide) rfl

/-- C9: a 429 response without a `Retry-After` header makes `send_request`
panic (the `unwrap()` on the header lookup), rather than return an error value;
and whenever every 429 in the script carries a header that parses, the call
never panics. -/
theorem c9_unwrap_retry_after :
    (∀ url (r : HttpResponse) rest, r.status = 429 → r.retryAfterHeader = none →
        send_request url (r :: rest) = ([], .panicked))
    ∧ ∀ url script,
        (∀ r ∈ script, r.status = 429 → (r.retryAfterHeader.bind parseRetryAfter).isSome) →
        (send_request url script).2 ≠ .panicked := by
  constructor
  · intro url r rest h429 hnone
    have hne : ¬ r.status = 200 := by rw [h429]; norm_num
    simp only [send_request, if_neg hne, if_pos h429, hnone]
  · intro url script
    induction script with
    | nil => intro _ hc; simp [send_request] at hc
    | cons r rest ih =>
      intro h
      by_cases h200 : r.status = 200
      · simp [send_request, if_pos h200]
      · by_cases h429 : r.status = 429
        · have hsome := h r (List.mem_cons_self r rest) h429
          match hh : r.retryAfterHeader with
          | none => rw [hh] at hsome; simp at hsome
          | some hd =>
            match hp : parseRetryAfter hd with
            | none => rw [hh] at hsome; simp [Option.bind, hp] at hsome
            | some t =>
              simp only [send_request, if_neg h200, if_pos h429, hh, hp]
              exact ih (fun x hx hx429 => h x (List.mem_cons_of_mem r hx) hx429)
        · match hdec : r.decodedError with
          | none => simp [send_request, if_neg h200, if_neg h429, hdec]
          | some e => simp [send_request, if_neg h200, if_neg h429, hdec]

/-- C9 witness: the panic at a concrete header-less 429, and panic-freedom of a
concrete script whose 429 carries a parseable header. -/
theorem c9_unwrap_retry_after_witness :
    send_request "u" (⟨429, none, "", none⟩ :: []) = ([], .panicked)
    ∧ (send_request "u" [⟨429, some "1.5", "", none⟩, ⟨200, none, "ok", none⟩]).2
        ≠ .panicked :=
  ⟨c9_unwrap_retry_after.1 "u" ⟨429, none, "", none⟩ [] rfl rfl,
   c9_unwrap_retry_after.2 "u" [⟨429, some "1.5", "", none⟩, ⟨200, none, "ok", none⟩]
     (by decide)⟩

/-! Data model: the three JSON entity structs and the three SQLite tables.
Snowflake ids are modelled as `Nat`. -/

/-- Struct `User` of src/main.rs. -/
structure User where
  id : Nat
  username : String
  discriminator : String
deriving DecidableEq, Repr

/-- Struct `Channel` of src/main.rs. -/
structure Channel where
  id : Nat
  guild_id : Option String
  name : Option String
deriving DecidableEq, Repr

/-- Struct `Message` of src/main.rs. -/
structure Message where
  id : Nat
  channel_id : Nat
  author : User
  content : String
  timestamp : String
deriving DecidableEq, Repr

/-- A row of the `channel` table (guild_id and name after `unwrap_or("")`). -/
structure ChannelRow where
  id : Nat
  guild_id : String
  name : String
deriving DecidableEq, Repr

/-- A row of the `user` table. -/
structure UserRow where
  id : Nat
  username : String
  discriminator : String
deriving DecidableEq, Repr

/-- A row of the `message` table. -/
structure MessageRow where
  id : Nat
  channel_id : Nat
  author_id : Nat
  content : String
  timestamp : String
deriving DecidableEq, Repr

/-- The SQLite store: three tables, each a list of rows in insertion order,
keyed by the `id` column (the primary key). -/
structure Store where
  channelTbl : List ChannelRow
  userTbl : List UserRow
  messageTbl : List MessageRow
deriving DecidableEq, Repr

/-- The empty store (a fresh database). -/
def Store.empty : Store := ⟨[], [], []⟩

/-- INSERT OR IGNORE, generically: append the row only when no existing row
has the same primary key (as computed by `key`). -/
def insertOrIgnoreBy {α : Type} (key : α → Nat) (tbl : List α) (row : α) : List α :=
  if tbl.any (fun r => key r = key row) then tbl else tbl ++ [row]

/-- INSERT OR IGNORE INTO channel: append only when the primary key is new. -/
def channelInsertOrIgnore : List ChannelRow → ChannelRow → List ChannelRow :=
  insertOrIgnoreBy ChannelRow.id

/-- INSERT OR IGNORE INTO user. -/
def userInsertOrIgnore : List UserRow → UserRow → List UserRow :=
  insertOrIgnoreBy UserRow.id

/-- INSERT OR IGNORE INTO message. -/
def messageInsertOrIgnore : List MessageRow → MessageRow → List MessageRow :=
  insertOrIgnoreBy MessageRow.id

/-- The user row a `User` is stored as. -/
def userRowOf (u : User) : UserRow := ⟨u.id, u.username, u.discriminator⟩

/-- The message row a `Message` is stored as. -/
def messageRowOf (m : Message) : MessageRow :=
  ⟨m.id, m.channel_id, m.author.id, m.content, m.timestamp⟩

/-- Function `insert_channel` of src/main.rs: one non-transactional
INSERT OR IGNORE plus a progress notice with the channel's name. -/
def insert_channel (s : Store) (c : Channel) : Store × List String :=
  ({ s with channelTbl := channelInsertOrIgnore s.channelTbl ⟨c.id, c.guild_id.getD "", c.name.getD ""⟩ },
   ["[INFO] Inserting 1 Channel: " ++ c.name.getD ""])

/-- One loop iteration of `insert_users`: an INSERT OR IGNORE ... RETURNING
statement.  `RETURNING` yields a row (and hence a printed notice, with the
username in Rust `{:?}` format) only when the insert actually inserted. -/
def userInsertStep (acc : List UserRow × List String) (u : User) : List UserRow × List String :=
  if acc.1.any (fun r => r.id = u.id) then acc
  else (acc.1 ++ [userRowOf u],
        acc.2 ++ ["[INFO] Inserting 1 User: \"" ++ u.username ++ "\""])

/-- Function `insert_users` of src/main.rs (happy path: every statement and the
commit succeed, so the transaction's effect is the fold of its inserts). -/
def insert_users (s : Store) (users : List User) : Store × List String :=
  let out := users.foldl userInsertStep (s.userTbl, [])
  ({ s with userTbl := out.1 }, out.2)

/-- Function `insert_messages` of src/main.rs (happy path), with its single
progress notice reporting the batch size. -/
def insert_messages (s : Store) (msgs : List Message) : Store × List String :=
  ({ s with messageTbl := msgs.foldl (fun tbl m => messageInsertOrIgnore tbl (messageRowOf m)) s.messageTbl },
   ["[INFO] Inserting " ++ toString msgs.length ++ " Messages"])

/-! Transactional model for C3.  A statement execution may fail (the oracle
`fail` says at which row index); rows are applied to the transaction state,
which becomes the store only at the explicit `tx.commit()`.  Dropping an
uncommitted rusqlite transaction (any `?`-exit path) rolls it back, so on
failure the visible store is the one from before the call. -/

/-- The statement loop of `insert_users`, acting on the transaction state;
`none` means a statement failed before the commit was reached. -/
def insertUsersTxGo (fail : Nat → Bool) : Nat → List UserRow → List User → Option (List UserRow)
  | _, tbl, [] => some tbl
  | i, tbl, u :: rest =>
    if fail i then none
    else insertUsersTxGo fail (i + 1) (userInsertOrIgnore tbl (userRowOf u)) rest

/-- `insert_users` under the failure oracle: the visible store after the call,
and whether the transaction committed. -/
def insertUsersTx (fail : Nat → Bool) (s : Store) (users : List User) : Store × Bool :=
  match insertUsersTxGo fail 0 s.userTbl users with
  | some tbl => ({ s with userTbl := tbl }, true)
  | none => (s, false)

/-- The statement loop of `insert_messages`, acting on the transaction state. -/
def insertMessagesTxGo (fail : Nat → Bool) : Nat → List MessageRow → List Message → Option (List MessageRow)
  | _, tbl, [] => some tbl
  | i, tbl, m :: rest =>
    if fail i then none
    else insertMessagesTxGo fail (i + 1) (messageInsertOrIgnore tbl (messageRowOf m)) rest

/-- `insert_messages` under the failure oracle. -/
def insertMessagesTx (fail : Nat → Bool) (s : Store) (msgs : List Message) : Store × Bool :=
  match insertMessagesTxGo fail 0 s.messageTbl msgs with
  | some tbl => ({ s with messageTbl := tbl }, true)
  | none => (s, false)

/-! The crawl: `get_channel_messages` and the per-channel loop of `main`.
The HTTP+JSON side of `get_messages` is abstracted to a page-serving function
`fetch : Option Nat → List Message` (the argument is the `before` cursor); the
concrete remote is `apiFetch`.  A run records a trace of events. -/

/-- An observable event of the crawl: an insert call or a page fetch
(`before` cursor used and page returned). -/
inductive Ev where
  | insCh (c : Channel)
  | insUs (users : List User)
  | insMs (msgs : List Message)
  | fetch (channelId : Nat) (before : Option Nat) (page : List Message)
deriving DecidableEq, Repr

/-- Outcome of the pagination loop.  `panicked` models the
`messages.last().unwrap()` failing; `fuelOut` means the fuel bound (the model's
substitute for nontermination) was hit. -/
inductive LoopOut where
  | ok (s : Store) (tr : List Ev)
  | fuelOut
  | panicked
deriving DecidableEq, Repr

/-- The `while !messages.is_empty()` loop of `get_channel_messages`: `msgs` is
the page just fetched.  Each iteration inserts the page's authors, reads the
cursor from the page's last (oldest) message, inserts the page, and fetches
the next page. -/
def gcmGo (cid : Nat) (fetch : Option Nat → List Message) :
    Nat → List Message → Store → LoopOut
  | 0, msgs, s => if msgs.isEmpty then .ok s [] else .fuelOut
  | fuel + 1, msgs, s =>
    if msgs.isEmpty then .ok s []
    else
      let users := msgs.map Message.author
      let s1 := (insert_users s users).1
      match msgs.getLast? with
      | none => .panicked
      | some lastMsg =>
        let s2 := (insert_messages s1 msgs).1
        let next := fetch (some lastMsg.id)
        match gcmGo cid fetch fuel next s2 with
        | .ok s3 tr =>
          .ok s3 (Ev.insUs users :: Ev.insMs msgs :: Ev.fetch cid (some lastMsg.id) next :: tr)
        | r => r

/-- Function `get_channel_messages` of src/main.rs: initial fetch with no
cursor, then the loop. -/
def get_channel_messages (cid : Nat) (fetch : Option Nat → List Message)
    (fuel : Nat) (s : Store) : LoopOut :=
  match gcmGo cid fetch fuel (fetch none) s with
  | .ok s' tr => .ok s' (Ev.fetch cid none (fetch none) :: tr)
  | r => r

/-- Modelled from the spec: the remote messages endpoint, for a channel whose
full history is `hist` (newest first).  It serves "up to `limit` (100) messages
ordered newest-first", and with a `before` cursor "only messages strictly older
than `before`" in the API's numeric id ordering. -/
def apiFetch (hist : List Message) : Option Nat → List Message
  | none => hist.take 100
  | some b => (hist.filter (fun m => m.id < b)).take 100

/-- The per-channel loop of `main`: for each requested channel, fetch its
metadata (served directly by the modelled remote), insert it, then run
`get_channel_messages` against the channel's remote history. -/
def crawlChannels (fuel : Nat) : List (Channel × List Message) → Store → LoopOut
  | [], s => .ok s []
  | (c, hist) :: rest, s =>
    let s1 := (insert_channel s c).1
    match get_channel_messages c.id (apiFetch hist) fuel s1 with
    | .ok s2 tr =>
      match crawlChannels fuel rest s2 with
      | .ok s3 tr' => .ok s3 (Ev.insCh c :: (tr ++ tr'))
      | r => r
    | r => r

/-- The store effect of one event (fetches do not touch the store). -/
def applyEv (s : Store) : Ev → Store
  | .insCh c => (insert_channel s c).1
  | .insUs us => (insert_users s us).1
  | .insMs ms => (insert_messages s ms).1
  | .fetch _ _ _ => s

/-- The pages returned by the fetch events of a trace, in order. -/
def fetchPages (tr : List Ev) : List (List Message) :=
  tr.filterMap fun e =>
    match e with
    | .fetch _ _ pg => some pg
    | _ => none

/-- The non-`None` `before` cursors used by the fetch events of a trace. -/
def cursorsOf (tr : List Ev) : List Nat :=
  tr.filterMap fun e =>
    match e with
    | .fetch _ (some b) _ => some b
    | _ => none

/-- The pages the loop body processed (one `insert_messages` batch each). -/
def pagesOf (tr : List Ev) : List (List Message) :=
  tr.filterMap fun e =>
    match e with
    | .insMs p => some p
    | _ => none

/-- Number of pages a history of `n` messages occupies: `⌈n / 100⌉`. -/
def numPages (n : Nat) : Nat := (n + 99) / 100

/-! C3: transactional atomicity of `insert_users` / `insert_messages`. -/

/-- A committed user transaction applied every row of the batch. -/
theorem insertUsersTxGo_ok (fail : Nat → Bool) (users : List User) :
    ∀ i tbl tbl', insertUsersTxGo fail i tbl users = some tbl' →
      tbl' = users.foldl (fun t u => userInsertOrIgnore t (userRowOf u)) tbl := by
  induction users with
  | nil => intro i tbl tbl' h; simp [insertUsersTxGo] at h; simp [h]
  | cons u rest ih =>
    intro i tbl tbl' h
    simp only [insertUsersTxGo] at h
    by_cases hf : fail i
    · rw [if_pos hf] at h; exact absurd h (by simp)
    · rw [if_neg hf] at h
      simpa using ih (i + 1) (userInsertOrIgnore tbl (userRowOf u)) tbl' h

/-- A committed message transaction applied every row of the batch. -/
theorem insertMessagesTxGo_ok (fail : Nat → Bool) (msgs : List Message) :
    ∀ i tbl tbl', insertMessagesTxGo fail i tbl msgs = some tbl' →
      tbl' = msgs.foldl (fun t m => messageInsertOrIgnore t (messageRowOf m)) tbl := by
  induction msgs with
  | nil => intro i tbl tbl' h; simp [insertMessagesTxGo] at h; simp [h]
  | cons m rest ih =>
    intro i tbl tbl' h
    simp only [insertMessagesTxGo] at h
    by_cases hf : fail i
    · rw [if_pos hf] at h; exact absurd h (by simp)
    · rw [if_neg hf] at h
      simpa using ih (i + 1) (messageInsertOrIgnore tbl (messageRowOf m)) tbl' h

/-- The table component of one `insert_users` iteration is a plain
INSERT OR IGNORE. -/
theorem userInsertStep_fst (acc : List UserRow × List String) (u : User) :
    (userInsertStep acc u).1 = userInsertOrIgnore acc.1 (userRowOf u) := by
  simp only [userInsertStep, userInsertOrIgnore, insertOrIgnoreBy, userRowOf,
    apply_ite Prod.fst]

/-- The happy-path `insert_users` table is the fold of per-row inserts
(the notice accumulator does not affect the table). -/
theorem insert_users_foldl (users : List User) :
    ∀ tbl ns, (users.foldl userInsertStep (tbl, ns)).1
      = users.foldl (fun t u => userInsertOrIgnore t (userRowOf u)) tbl := by
  induction users with
  | nil => intro tbl ns; rfl
  | cons u rest ih =>
    intro tbl ns
    rw [List.foldl_cons, List.foldl_cons]
    have h := ih (userInsertStep (tbl, ns) u).1 (userInsertStep (tbl, ns) u).2
    rw [Prod.mk.eta] at h
    rw [h, userInsertStep_fst]

/-- C3: each of `insert_users` and `insert_messages` is atomic per call: if
any statement fails before the explicit commit, the transaction is rolled back
and the visible store is exactly the store from before the call (no row of the
batch is visible); if the commit is reached, the effect is the full batch
insert of the happy path. -/
theorem c3_transaction_atomicity (fail : Nat → Bool) (s : Store)
    (users : List User) (msgs : List Message) :
    ((insertUsersTx fail s users).2 = false → (insertUsersTx fail s users).1 = s)
    ∧ ((insertUsersTx fail s users).2 = true →
        (insertUsersTx fail s users).1 = (insert_users s users).1)
    ∧ ((insertMessagesTx fail s msgs).2 = false → (insertMessagesTx fail s msgs).1 = s)
    ∧ ((insertMessagesTx fail s msgs).2 = true →
        (insertMessagesTx fail s msgs).1 = (insert_messages s msgs).1) := by
  refine ⟨?_, ?_, ?_, ?_⟩
  · intro h
    unfold insertUsersTx at h ⊢
    match hgo : insertUsersTxGo fail 0 s.userTbl users with
    | some tbl => rw [hgo] at h; simp at h
    | none => rfl
  · intro h
    unfold insertUsersTx at h ⊢
    match hgo : insertUsersTxGo fail 0 s.userTbl users with
    | some tbl =>
      have htbl := insertUsersTxGo_ok fail users 0 s.userTbl tbl hgo
      show { s with userTbl := tbl } = (insert_users s users).1
      simp only [insert_users]
      rw [insert_users_foldl users s.userTbl [], htbl]
    | none => rw [hgo] at h; simp at h
  · intro h
    unfold insertMessagesTx at h ⊢
    match hgo : insertMessagesTxGo fail 0 s.messageTbl msgs with
    | some tbl => rw [hgo] at h; simp at h
    | none => rfl
  · intro h
    unfold insertMessagesTx at h ⊢
    match hgo : insertMessagesTxGo fail 0 s.messageTbl msgs with
    | some tbl =>
      have htbl := insertMessagesTxGo_ok fail msgs 0 s.messageTbl tbl hgo
      show { s with messageTbl := tbl } = (insert_messages s msgs).1
      simp only [insert_messages]
      rw [htbl]
    | none => rw [hgo] at h; simp at h

/-- C3 witness: a transaction failing at its second row leaves the store
untouched; a never-failing one commits the whole batch. -/
theorem c3_transaction_atomicity_witness :
    ((insertUsersTx (fun i => decide (i = 1)) Store.empty
        [⟨1, "a", "0"⟩, ⟨2, "b", "0"⟩]).1 = Store.empty)
    ∧ ((insertMessagesTx (fun _ => false) Store.empty
        [⟨5, 9, ⟨1, "a", "0"⟩, "hi", "t"⟩]).1
      = (insert_messages Store.empty [⟨5, 9, ⟨1, "a", "0"⟩, "hi", "t"⟩]).1) :=
  ⟨(c3_transaction_atomicity (fun i => decide (i = 1)) Store.empty
      [⟨1, "a", "0"⟩, ⟨2, "b", "0"⟩] []).1 (by decide),
   (c3_transaction_atomicity (fun _ => false) Store.empty []
      [⟨5, 9, ⟨1, "a", "0"⟩, "hi", "t"⟩]).2.2.2 (by decide)⟩

/-! C8: progress notices.  The claim as stated is false for `insert_users`:
its statement uses `INSERT OR IGNORE ... RETURNING`, which yields a row (and
hence a printed notice) only for rows actually inserted — a call whose rows are
all already present prints nothing, and no notice reports the batch size. -/

/-- C8 counterexample: a call to `insert_users` with one (already present) row
emits no progress notice at all. -/
theorem c8_counterexample :
    (insert_users ⟨[], [⟨1, "alice", "0001"⟩], []⟩ [⟨1, "alice", "0001"⟩]).2 = []
    ∧ ([(⟨1, "alice", "0001"⟩ : User)]).length = 1 := by
  constructor
  · rfl
  · rfl

/-- Notice bookkeeping of the `insert_users` fold: one notice per row the fold
actually added, each naming the username of a user of the batch. -/
theorem insert_users_notices (users : List User) :
    ∀ tbl ns, (users.foldl userInsertStep (tbl, ns)).2.length + tbl.length
        = (users.foldl userInsertStep (tbl, ns)).1.length + ns.length
      ∧ ∀ n ∈ (users.foldl userInsertStep (tbl, ns)).2,
          n ∈ ns ∨ ∃ u ∈ users, n = "[INFO] Inserting 1 User: \"" ++ u.username ++ "\"" := by
  induction users with
  | nil =>
    intro tbl ns
    refine ⟨?_, fun n hn => Or.inl hn⟩
    simp only [List.foldl_nil]
    omega
  | cons u rest ih =>
    intro tbl ns
    simp only [List.foldl_cons, userInsertStep]
    by_cases hc : tbl.any (fun r => r.id = u.id)
    · rw [if_pos hc]
      obtain ⟨h1, h2⟩ := ih tbl ns
      refine ⟨h1, fun n hn => ?_⟩
      rcases h2 n hn with h | ⟨v, hv, hn'⟩
      · exact Or.inl h
      · exact Or.inr ⟨v, List.mem_cons_of_mem u hv, hn'⟩
    · rw [if_neg hc]
      obtain ⟨h1, h2⟩ := ih (tbl ++ [userRowOf u])
        (ns ++ ["[INFO] Inserting 1 User: \"" ++ u.username ++ "\""])
      refine ⟨by simp only [List.length_append, List.length_cons, List.length_nil] at h1 ⊢; omega, ?_⟩
      intro n hn
      rcases h2 n hn with h | ⟨v, hv, hn'⟩
      · rcases List.mem_append.1 h with h' | h'
        · exact Or.inl h'
        · exact Or.inr ⟨u, List.mem_cons_self u rest, by simpa using h'⟩
      · exact Or.inr ⟨v, List.mem_cons_of_mem u hv, hn'⟩

/-- C8 amended: `insert_channel` emits exactly one notice carrying the
channel's name (its batch size is always 1), `insert_messages` emits exactly
one notice carrying the batch's row count, and `insert_users` emits one notice
per row it actually inserted (rows ignored as duplicates print nothing), each
naming an inserted username — so its notice count is the number of user rows
the call added, not the batch size. -/
theorem c8_progress_notices (s : Store) (c : Channel) (users : List User)
    (msgs : List Message) :
    (insert_channel s c).2 = ["[INFO] Inserting 1 Channel: " ++ c.name.getD ""]
    ∧ (insert_messages s msgs).2
        = ["[INFO] Inserting " ++ toString msgs.length ++ " Messages"]
    ∧ (insert_users s users).2.length + s.userTbl.length
        = (insert_users s users).1.userTbl.length
    ∧ ∀ n ∈ (insert_users s users).2,
        ∃ u ∈ users, n = "[INFO] Inserting 1 User: \"" ++ u.username ++ "\"" := by
  obtain ⟨h1, h2⟩ := insert_users_notices users s.userTbl []
  refine ⟨rfl, rfl, by simpa using h1, fun n hn => ?_⟩
  rcases h2 n hn with h | h
  · simp at h
  · exact h

/-! Inversion lemmas for the pagination loop and the crawl. -/

/-- The loop is a no-op on an empty page. -/
theorem gcmGo_nil (cid : Nat) (fetch : Option Nat → List Message) (fuel : Nat) (s : Store) :
    gcmGo cid fetch fuel [] s = .ok s [] := by
  cases fuel <;> simp [gcmGo]

/-- Inversion of a successful loop run: either the current page was empty, or
the loop consumed one unit of fuel, inserted users then messages, fetched the
next page with the last message's id as cursor, and continued. -/
theorem gcmGo_ok_inv {cid : Nat} {fetch : Option Nat → List Message} {fuel : Nat}
    {msgs : List Message} {s s' : Store} {tr : List Ev}
    (h : gcmGo cid fetch fuel msgs s = .ok s' tr) :
    (msgs = [] ∧ s' = s ∧ tr = [])
    ∨ ∃ lastMsg fuel' tr', fuel = fuel' + 1 ∧ msgs ≠ [] ∧ msgs.getLast? = some lastMsg
        ∧ gcmGo cid fetch fuel' (fetch (some lastMsg.id))
            ((insert_messages ((insert_users s (msgs.map Message.author)).1) msgs).1)
          = .ok s' tr'
        ∧ tr = Ev.insUs (msgs.map Message.author) :: Ev.insMs msgs
            :: Ev.fetch cid (some lastMsg.id) (fetch (some lastMsg.id)) :: tr' := by
  match fuel with
  | 0 =>
    rw [gcmGo] at h
    by_cases he : msgs.isEmpty
    · rw [if_pos he] at h
      exact Or.inl ⟨List.isEmpty_iff.1 he, (LoopOut.ok.inj h).1.symm, (LoopOut.ok.inj h).2.symm⟩
    · rw [if_neg he] at h
      exact absurd h (by simp)
  | fuel' + 1 =>
    rw [gcmGo] at h
    by_cases he : msgs.isEmpty
    · rw [if_pos he] at h
      exact Or.inl ⟨List.isEmpty_iff.1 he, (LoopOut.ok.inj h).1.symm, (LoopOut.ok.inj h).2.symm⟩
    · rw [if_neg he] at h
      match hlast : msgs.getLast? with
      | none =>
        rw [hlast] at h
        exact absurd h (by simp)
      | some lastMsg =>
        rw [hlast] at h
        simp only [] at h
        match hrec : gcmGo cid fetch fuel' (fetch (some lastMsg.id))
            ((insert_messages ((insert_users s (msgs.map Message.author)).1) msgs).1) with
        | .ok s3 tr0 =>
          rw [hrec] at h
          refine Or.inr ⟨lastMsg, fuel', tr0, rfl, by simpa using he, rfl, ?_, ?_⟩
          · rw [hrec, (LoopOut.ok.inj h).1]
          · exact (LoopOut.ok.inj h).2.symm
        | .fuelOut => rw [hrec] at h; exact absurd h (by simp)
        | .panicked => rw [hrec] at h; exact absurd h (by simp)

/-- Inversion of a successful `get_channel_messages` run. -/
theorem get_channel_messages_ok_inv {cid : Nat} {fetch : Option Nat → List Message}
    {fuel : Nat} {s s' : Store} {tr : List Ev}
    (h : get_channel_messages cid fetch fuel s = .ok s' tr) :
    ∃ tr', gcmGo cid fetch fuel (fetch none) s = .ok s' tr'
      ∧ tr = Ev.fetch cid none (fetch none) :: tr' := by
  unfold get_channel_messages at h
  match hh : gcmGo cid fetch fuel (fetch none) s with
  | .ok s2 t2 =>
    rw [hh] at h
    have h' : LoopOut.ok s2 (Ev.fetch cid none (fetch none) :: t2) = LoopOut.ok s' tr := h
    exact ⟨t2, by rw [(LoopOut.ok.inj h').1], (LoopOut.ok.inj h').2.symm⟩
  | .fuelOut => rw [hh] at h; exact absurd h (by simp)
  | .panicked => rw [hh] at h; exact absurd h (by simp)

/-- Inversion of a successful crawl over an empty channel list. -/
theorem crawlChannels_ok_nil_inv {fuel : Nat} {s s' : Store} {tr : List Ev}
    (h : crawlChannels fuel [] s = .ok s' tr) : s' = s ∧ tr = [] := by
  unfold crawlChannels at h
  exact ⟨(LoopOut.ok.inj h).1.symm, (LoopOut.ok.inj h).2.symm⟩

/-- Inversion of a successful crawl step over one channel. -/
theorem crawlChannels_ok_cons_inv {fuel : Nat} {c : Channel} {hist : List Message}
    {rest : List (Channel × List Message)} {s s' : Store} {tr : List Ev}
    (h : crawlChannels fuel ((c, hist) :: rest) s = .ok s' tr) :
    ∃ s2 tr₁ tr₂,
      get_channel_messages c.id (apiFetch hist) fuel (insert_channel s c).1 = .ok s2 tr₁
      ∧ crawlChannels fuel rest s2 = .ok s' tr₂
      ∧ tr = Ev.insCh c :: (tr₁ ++ tr₂) := by
  unfold crawlChannels at h
  simp only [] at h
  match hh : get_channel_messages c.id (apiFetch hist) fuel (insert_channel s c).1 with
  | .ok s2 t1 =>
    rw [hh] at h
    have h2 : (match crawlChannels fuel rest s2 with
        | LoopOut.ok s3 tr' => LoopOut.ok s3 (Ev.insCh c :: (t1 ++ tr'))
        | r => r) = LoopOut.ok s' tr := h
    match hh' : crawlChannels fuel rest s2 with
    | .ok s3 t2 =>
      rw [hh'] at h2
      have h3 : LoopOut.ok s3 (Ev.insCh c :: (t1 ++ t2)) = LoopOut.ok s' tr := h2
      exact ⟨s2, t1, t2, rfl, by rw [hh', (LoopOut.ok.inj h3).1], (LoopOut.ok.inj h3).2.symm⟩
    | .fuelOut => rw [hh'] at h2; exact absurd h2 (by simp)
    | .panicked => rw [hh'] at h2; exact absurd h2 (by simp)
  | .fuelOut => rw [hh] at h; exact absurd h (by simp)
  | .panicked => rw [hh] at h; exact absurd h (by simp)

/-! Trace extraction simp lemmas. -/

@[simp] theorem pagesOf_nil : pagesOf [] = [] := rfl

@[simp] theorem pagesOf_cons_insCh (c : Channel) (tr : List Ev) :
    pagesOf (Ev.insCh c :: tr) = pagesOf tr := rfl

@[simp] theorem pagesOf_cons_insUs (us : List User) (tr : List Ev) :
    pagesOf (Ev.insUs us :: tr) = pagesOf tr := rfl

@[simp] theorem pagesOf_cons_insMs (p : List Message) (tr : List Ev) :
    pagesOf (Ev.insMs p :: tr) = p :: pagesOf tr := rfl

@[simp] theorem pagesOf_cons_fetch (c : Nat) (b : Option Nat) (pg : List Message)
    (tr : List Ev) : pagesOf (Ev.fetch c b pg :: tr) = pagesOf tr := rfl

@[simp] theorem fetchPages_nil : fetchPages [] = [] := rfl

@[simp] theorem fetchPages_cons_insCh (c : Channel) (tr : List Ev) :
    fetchPages (Ev.insCh c :: tr) = fetchPages tr := rfl

@[simp] theorem fetchPages_cons_insUs (us : List User) (tr : List Ev) :
    fetchPages (Ev.insUs us :: tr) = fetchPages tr := rfl

@[simp] theorem fetchPages_cons_insMs (p : List Message) (tr : List Ev) :
    fetchPages (Ev.insMs p :: tr) = fetchPages tr := rfl

@[simp] theorem fetchPages_cons_fetch (c : Nat) (b : Option Nat) (pg : List Message)
    (tr : List Ev) : fetchPages (Ev.fetch c b pg :: tr) = pg :: fetchPages tr := rfl

@[simp] theorem cursorsOf_nil : cursorsOf [] = [] := rfl

@[simp] theorem cursorsOf_cons_insCh (c : Channel) (tr : List Ev) :
    cursorsOf (Ev.insCh c :: tr) = cursorsOf tr := rfl

@[simp] theorem cursorsOf_cons_insUs (us : List User) (tr : List Ev) :
    cursorsOf (Ev.insUs us :: tr) = cursorsOf tr := rfl

@[simp] theorem cursorsOf_cons_insMs (p : List Message) (tr : List Ev) :
    cursorsOf (Ev.insMs p :: tr) = cursorsOf tr := rfl

@[simp] theorem cursorsOf_cons_fetch_none (c : Nat) (pg : List Message) (tr : List Ev) :
    cursorsOf (Ev.fetch c none pg :: tr) = cursorsOf tr := rfl

@[simp] theorem cursorsOf_cons_fetch_some (c : Nat) (b : Nat) (pg : List Message)
    (tr : List Ev) : cursorsOf (Ev.fetch c (some b) pg :: tr) = b :: cursorsOf tr := rfl

/-! C10: the loop guard protects the `last().unwrap()`, and cursors always
come from the previous page's oldest message. -/

/-- Between two consecutive trace events: a fetch that uses a `before` cursor
is immediately preceded by the insert of a non-empty page whose last (oldest)
message has exactly that id. -/
def cursorRel : Ev → Ev → Prop := fun e₁ e₂ =>
  ∀ c b pg, e₂ = Ev.fetch c (some b) pg →
    ∃ p, e₁ = Ev.insMs p ∧ (p.getLast?).map Message.id = some b

/-- The loop never evaluates the panicking branch of the cursor extraction,
whatever the fetch function returns. -/
theorem gcmGo_ne_panicked (cid : Nat) (fetch : Option Nat → List Message)
    (fuel : Nat) : ∀ msgs s, gcmGo cid fetch fuel msgs s ≠ .panicked := by
  induction fuel with
  | zero =>
    intro msgs s h
    rw [gcmGo] at h
    by_cases he : msgs.isEmpty <;> simp [he] at h
  | succ fuel ih =>
    intro msgs s h
    rw [gcmGo] at h
    by_cases he : msgs.isEmpty
    · rw [if_pos he] at h; exact absurd h (by simp)
    · rw [if_neg he] at h
      match hlast : msgs.getLast? with
      | none =>
        rw [List.getLast?_eq_none_iff] at hlast
        rw [hlast] at he
        exact he rfl
      | some lastMsg =>
        rw [hlast] at h
        simp only [] at h
        match hrec : gcmGo cid fetch fuel
            (fetch (some lastMsg.id))
            ((insert_messages ((insert_users s (msgs.map Message.author)).1) msgs).1) with
        | .ok s3 tr => rw [hrec] at h; exact absurd h (by simp)
        | .fuelOut => rw [hrec] at h; exact absurd h (by simp)
        | .panicked => exact ih _ _ hrec

/-- Shape of a successful loop trace: cursors match the previous page's last
message, the trace never begins with a cursor fetch, and every processed page
is non-empty. -/
theorem gcmGo_trace_shape {cid : Nat} {fetch : Option Nat → List Message} :
    ∀ (fuel : Nat) {msgs : List Message} {s s' : Store} {tr : List Ev},
    gcmGo cid fetch fuel msgs s = .ok s' tr →
    List.Chain' cursorRel tr
    ∧ (∀ c b pg, tr.head? ≠ some (Ev.fetch c (some b) pg))
    ∧ (∀ p ∈ pagesOf tr, p ≠ []) := by
  intro fuel
  induction fuel with
  | zero =>
    intro msgs s s' tr h
    rcases gcmGo_ok_inv h with ⟨_, _, rfl⟩ | ⟨_, fuel', _, hfe, _⟩
    · exact ⟨List.chain'_nil, by simp, by simp⟩
    · exact absurd hfe (by omega)
  | succ fuel ih =>
    intro msgs s s' tr h
    rcases gcmGo_ok_inv h with ⟨_, _, rfl⟩ |
      ⟨lastMsg, fuel', tr', hfe, hne, hlast, hrec, rfl⟩
    · exact ⟨List.chain'_nil, by simp, by simp⟩
    · have hf : fuel' = fuel := by omega
      subst hf
      obtain ⟨ch1, hd1, pg1⟩ := ih hrec
      refine ⟨?_, ?_, ?_⟩
      · rw [List.chain'_cons, List.chain'_cons]
        refine ⟨?_, ?_, ?_⟩
        · intro c b pg heq; exact absurd heq (by simp)
        · intro c b pg heq
          refine ⟨msgs, rfl, ?_⟩
          have := Ev.fetch.inj heq
          rw [hlast]
          show some lastMsg.id = some b
          exact this.2.1
        · rw [List.chain'_cons']
          refine ⟨?_, ch1⟩
          intro y hy c b pg heq
          rw [heq] at hy
          exact (hd1 c b pg (Option.mem_def.mp hy)).elim
      · intro c b pg h
        exact Ev.noConfusion (Option.some.inj h)
      · intro p hp
        simp only [pagesOf_cons_insUs, pagesOf_cons_insMs, pagesOf_cons_fetch] at hp
        rcases List.mem_cons.mp hp with rfl | hp
        · exact hne
        · exact pg1 p hp

/-- C10: the loop body runs only on a non-empty page, so the
`messages.last().unwrap()` cursor extraction never panics (for any fetch
behaviour whatsoever); and on every successful run, each fetch that carries a
`before` cursor is immediately preceded by the insert of the most recent
(always non-empty) page, whose oldest message's id is exactly that cursor. -/
theorem c10_loop_guard :
    (∀ cid fetch fuel msgs s, gcmGo cid fetch fuel msgs s ≠ .panicked)
    ∧ (∀ cid fetch fuel s, get_channel_messages cid fetch fuel s ≠ .panicked)
    ∧ (∀ cid fetch fuel s s' tr, get_channel_messages cid fetch fuel s = .ok s' tr →
        List.Chain' cursorRel tr ∧ ∀ p ∈ pagesOf tr, p ≠ []) := by
  refine ⟨fun cid fetch fuel msgs s => gcmGo_ne_panicked cid fetch fuel msgs s, ?_, ?_⟩
  · intro cid fetch fuel s h
    unfold get_channel_messages at h
    match hg : gcmGo cid fetch fuel (fetch none) s with
    | .ok s2 t2 =>
      rw [hg] at h
      have h' : LoopOut.ok s2 (Ev.fetch cid none (fetch none) :: t2) = .panicked := h
      exact absurd h' (by simp)
    | .fuelOut =>
      rw [hg] at h
      have h' : LoopOut.fuelOut = LoopOut.panicked := h
      exact absurd h' (by simp)
    | .panicked => exact gcmGo_ne_panicked cid fetch fuel (fetch none) s hg
  · intro cid fetch fuel s s' tr h
    obtain ⟨tr', hgo, rfl⟩ := get_channel_messages_ok_inv h
    obtain ⟨ch1, hd1, pg1⟩ := gcmGo_trace_shape fuel hgo
    refine ⟨?_, ?_⟩
    · rw [List.chain'_cons']
      refine ⟨?_, ch1⟩
      intro y hy c b pg heq
      rw [heq] at hy
      exact (hd1 c b pg (Option.mem_def.mp hy)).elim
    · intro p hp
      rw [pagesOf_cons_fetch] at hp
      exact pg1 p hp

/-- C10 witness: a concrete loop run and a concrete successful
`get_channel_messages` run on an empty history. -/
theorem c10_loop_guard_witness :
    gcmGo 7 (fun _ => []) 3 [] Store.empty ≠ .panicked
    ∧ get_channel_messages 7 (fun _ => []) 3 Store.empty ≠ .panicked
    ∧ (List.Chain' cursorRel [Ev.fetch 7 none []]
        ∧ ∀ p ∈ pagesOf [Ev.fetch 7 none []], p ≠ []) :=
  ⟨c10_loop_guard.1 7 (fun _ => []) 3 [] Store.empty,
   c10_loop_guard.2.1 7 (fun _ => []) 3 Store.empty,
   c10_loop_guard.2.2 7 (fun _ => []) 3 Store.empty Store.empty [Ev.fetch 7 none []] rfl⟩

/-! C2: idempotence of the crawl.  The key facts about INSERT OR IGNORE:
tables only grow, an insert makes its key present, and an insert whose key is
already present is a no-op. -/

theorem mem_insertOrIgnoreBy {α : Type} (key : α → Nat) (tbl : List α) (row x : α)
    (hx : x ∈ tbl) : x ∈ insertOrIgnoreBy key tbl row := by
  unfold insertOrIgnoreBy
  split
  · exact hx
  · exact List.mem_append_left _ hx

theorem insertOrIgnoreBy_key_self {α : Type} (key : α → Nat) (tbl : List α) (row : α) :
    ∃ x ∈ insertOrIgnoreBy key tbl row, key x = key row := by
  unfold insertOrIgnoreBy
  by_cases h : tbl.any (fun r => key r = key row)
  · rw [if_pos h]
    rcases List.any_eq_true.mp h with ⟨x, hx, hk⟩
    exact ⟨x, hx, by simpa using hk⟩
  · rw [if_neg h]
    exact ⟨row, List.mem_append_right _ (List.mem_singleton.mpr rfl), rfl⟩

theorem insertOrIgnoreBy_of_present {α : Type} (key : α → Nat) (tbl : List α) (row : α)
    (h : ∃ x ∈ tbl, key x = key row) : insertOrIgnoreBy key tbl row = tbl := by
  unfold insertOrIgnoreBy
  rcases h with ⟨x, hx, hk⟩
  rw [if_pos (List.any_eq_true.mpr ⟨x, hx, by simpa using hk⟩)]

theorem foldl_ioi_mono {α β : Type} (key : α → Nat) (g : β → α) (l : List β) :
    ∀ tbl x, x ∈ tbl → x ∈ l.foldl (fun t a => insertOrIgnoreBy key t (g a)) tbl := by
  induction l with
  | nil => intro tbl x hx; simpa using hx
  | cons b l ih =>
    intro tbl x hx
    rw [List.foldl_cons]
    exact ih _ x (mem_insertOrIgnoreBy key tbl (g b) x hx)

theorem foldl_ioi_key_present {α β : Type} (key : α → Nat) (g : β → α) (l : List β) :
    ∀ tbl, ∀ a ∈ l, ∃ x ∈ l.foldl (fun t a => insertOrIgnoreBy key t (g a)) tbl,
      key x = key (g a) := by
  induction l with
  | nil => intro tbl a ha; simp at ha
  | cons b l ih =>
    intro tbl a ha
    rw [List.foldl_cons]
    rcases List.mem_cons.mp ha with rfl | ha
    · obtain ⟨x, hx, hk⟩ := insertOrIgnoreBy_key_self key tbl (g a)
      exact ⟨x, foldl_ioi_mono key g l _ x hx, hk⟩
    · exact ih _ a ha

theorem foldl_ioi_of_present {α β : Type} (key : α → Nat) (g : β → α) (l : List β) :
    ∀ tbl, (∀ a ∈ l, ∃ x ∈ tbl, key x = key (g a)) →
      l.foldl (fun t a => insertOrIgnoreBy key t (g a)) tbl = tbl := by
  induction l with
  | nil => intro tbl _; rfl
  | cons b l ih =>
    intro tbl h
    rw [List.foldl_cons, insertOrIgnoreBy_of_present key tbl (g b) (h b (List.mem_cons_self b l))]
    exact ih tbl (fun a ha => h a (List.mem_cons_of_mem b ha))

theorem mem_foldl_ioi {α β : Type} (key : α → Nat) (g : β → α) (l : List β) :
    ∀ tbl x, x ∈ l.foldl (fun t a => insertOrIgnoreBy key t (g a)) tbl →
      x ∈ tbl ∨ ∃ a ∈ l, x = g a := by
  induction l with
  | nil => intro tbl x hx; exact Or.inl (by simpa using hx)
  | cons b l ih =>
    intro tbl x hx
    rw [List.foldl_cons] at hx
    rcases ih _ x hx with h | ⟨a, ha, rfl⟩
    · unfold insertOrIgnoreBy at h
      by_cases hc : tbl.any (fun r => key r = key (g b))
      · rw [if_pos hc] at h
        exact Or.inl h
      · rw [if_neg hc] at h
        rcases List.mem_append.mp h with h' | h'
        · exact Or.inl h'
        · exact Or.inr ⟨b, List.mem_cons_self b l, List.mem_singleton.mp h'⟩
    · exact Or.inr ⟨a, List.mem_cons_of_mem b ha, rfl⟩

/-- Row-wise containment of stores (tables only ever grow during the crawl). -/
def StoreSub (s t : Store) : Prop :=
  (∀ r ∈ s.channelTbl, r ∈ t.channelTbl)
  ∧ (∀ r ∈ s.userTbl, r ∈ t.userTbl)
  ∧ (∀ r ∈ s.messageTbl, r ∈ t.messageTbl)

theorem StoreSub.rfl (s : Store) : StoreSub s s :=
  ⟨fun _ h => h, fun _ h => h, fun _ h => h⟩

theorem StoreSub.trans {s t u : Store} (h₁ : StoreSub s t) (h₂ : StoreSub t u) :
    StoreSub s u :=
  ⟨fun r hr => h₂.1 r (h₁.1 r hr), fun r hr => h₂.2.1 r (h₁.2.1 r hr),
   fun r hr => h₂.2.2 r (h₁.2.2 r hr)⟩

/-- A channel row with this primary key exists. -/
def ChannelIdIn (s : Store) (i : Nat) : Prop := ∃ r ∈ s.channelTbl, r.id = i

/-- A user row with this primary key exists. -/
def UserIdIn (s : Store) (i : Nat) : Prop := ∃ r ∈ s.userTbl, r.id = i

/-- A message row with this primary key exists. -/
def MessageIdIn (s : Store) (i : Nat) : Prop := ∃ r ∈ s.messageTbl, r.id = i

/-- All primary keys an event would insert are already present. -/
def KeysPresent (s : Store) : Ev → Prop
  | .insCh c => ChannelIdIn s c.id
  | .insUs us => ∀ u ∈ us, UserIdIn s u.id
  | .insMs ms => ∀ m ∈ ms, MessageIdIn s m.id
  | .fetch _ _ _ => True

/-- The store shape of `insert_users`. -/
theorem insert_users_fst (s : Store) (users : List User) :
    (insert_users s users).1
      = { s with userTbl := users.foldl (fun t u => userInsertOrIgnore t (userRowOf u)) s.userTbl } := by
  show ({ s with userTbl := (users.foldl userInsertStep (s.userTbl, [])).1 } : Store) = _
  rw [insert_users_foldl users s.userTbl []]

theorem applyEv_sub (s : Store) (ev : Ev) : StoreSub s (applyEv s ev) := by
  cases ev with
  | insCh c =>
    refine ⟨fun r hr => ?_, fun r hr => hr, fun r hr => hr⟩
    exact mem_insertOrIgnoreBy ChannelRow.id s.channelTbl _ r hr
  | insUs us =>
    show StoreSub s (insert_users s us).1
    rw [insert_users_fst]
    exact ⟨fun r hr => hr, fun r hr => foldl_ioi_mono UserRow.id userRowOf us _ r hr,
      fun r hr => hr⟩
  | insMs ms =>
    exact ⟨fun r hr => hr, fun r hr => hr,
      fun r hr => foldl_ioi_mono MessageRow.id messageRowOf ms _ r hr⟩
  | fetch c b pg => exact StoreSub.rfl s

theorem keysPresent_mono {s t : Store} {ev : Ev} (hsub : StoreSub s t)
    (h : KeysPresent s ev) : KeysPresent t ev := by
  cases ev with
  | insCh c =>
    obtain ⟨r, hr, hk⟩ := h
    exact ⟨r, hsub.1 r hr, hk⟩
  | insUs us =>
    intro u hu
    obtain ⟨r, hr, hk⟩ := h u hu
    exact ⟨r, hsub.2.1 r hr, hk⟩
  | insMs ms =>
    intro m hm
    obtain ⟨r, hr, hk⟩ := h m hm
    exact ⟨r, hsub.2.2 r hr, hk⟩
  | fetch c b pg => trivial

/-- An insert whose keys are all present is a no-op on the store. -/
theorem applyEv_absorbed {s : Store} {ev : Ev} (h : KeysPresent s ev) :
    applyEv s ev = s := by
  cases ev with
  | insCh c =>
    show ({ s with channelTbl := channelInsertOrIgnore s.channelTbl _ } : Store) = s
    rw [show channelInsertOrIgnore = insertOrIgnoreBy ChannelRow.id from rfl,
      insertOrIgnoreBy_of_present ChannelRow.id s.channelTbl
        ⟨c.id, c.guild_id.getD "", c.name.getD ""⟩ h]
  | insUs us =>
    show (insert_users s us).1 = s
    rw [insert_users_fst]
    have : us.foldl (fun t u => userInsertOrIgnore t (userRowOf u)) s.userTbl = s.userTbl := by
      exact foldl_ioi_of_present UserRow.id userRowOf us s.userTbl (fun u hu => h u hu)
    rw [this]
  | insMs ms =>
    show ({ s with messageTbl := ms.foldl (fun t m => messageInsertOrIgnore t (messageRowOf m)) s.messageTbl } : Store) = s
    have : ms.foldl (fun t m => messageInsertOrIgnore t (messageRowOf m)) s.messageTbl
        = s.messageTbl :=
      foldl_ioi_of_present MessageRow.id messageRowOf ms s.messageTbl (fun m hm => h m hm)
    rw [this]
  | fetch c b pg => rfl

/-- After an event is applied, all its keys are present. -/
theorem applyEv_self_keys (s : Store) (ev : Ev) : KeysPresent (applyEv s ev) ev := by
  cases ev with
  | insCh c =>
    exact insertOrIgnoreBy_key_self ChannelRow.id s.channelTbl _
  | insUs us =>
    intro u hu
    show ∃ r ∈ (insert_users s us).1.userTbl, r.id = u.id
    rw [insert_users_fst]
    exact foldl_ioi_key_present UserRow.id userRowOf us s.userTbl u hu
  | insMs ms =>
    intro m hm
    exact foldl_ioi_key_present MessageRow.id messageRowOf ms s.messageTbl m hm
  | fetch c b pg => trivial

/-- A successful loop run only grows the store, and the final store contains
every key the run inserted. -/
theorem gcmGo_keys {cid : Nat} {fetch : Option Nat → List Message} :
    ∀ (fuel : Nat) {msgs : List Message} {s s' : Store} {tr : List Ev},
    gcmGo cid fetch fuel msgs s = .ok s' tr →
    StoreSub s s' ∧ ∀ ev ∈ tr, KeysPresent s' ev := by
  intro fuel
  induction fuel with
  | zero =>
    intro msgs s s' tr h
    rcases gcmGo_ok_inv h with ⟨_, rfl, rfl⟩ | ⟨_, _, _, hfe, _⟩
    · exact ⟨StoreSub.rfl _, by simp⟩
    · exact absurd hfe (by omega)
  | succ fuel ih =>
    intro msgs s s' tr h
    rcases gcmGo_ok_inv h with ⟨_, rfl, rfl⟩ |
      ⟨lastMsg, fuel', tr', hfe, hne, hlast, hrec, rfl⟩
    · exact ⟨StoreSub.rfl _, by simp⟩
    · have hf : fuel' = fuel := by omega
      subst hf
      obtain ⟨hsub', hkeys'⟩ := ih hrec
      have hsub1 : StoreSub (applyEv s (Ev.insUs (msgs.map Message.author))) s' :=
        StoreSub.trans (applyEv_sub _ (Ev.insMs msgs)) hsub'
      refine ⟨StoreSub.trans (applyEv_sub s (Ev.insUs (msgs.map Message.author))) hsub1, ?_⟩
      intro ev hev
      rcases List.mem_cons.mp hev with rfl | hev
      · exact keysPresent_mono hsub1 (applyEv_self_keys s _)
      rcases List.mem_cons.mp hev with rfl | hev
      · exact keysPresent_mono hsub' (applyEv_self_keys _ (Ev.insMs msgs))
      rcases List.mem_cons.mp hev with rfl | hev
      · trivial
      · exact hkeys' ev hev

/-- `get_channel_messages` only grows the store, and the final store contains
every key it inserted. -/
theorem get_channel_messages_keys {cid : Nat} {fetch : Option Nat → List Message}
    {fuel : Nat} {s s' : Store} {tr : List Ev}
    (h : get_channel_messages cid fetch fuel s = .ok s' tr) :
    StoreSub s s' ∧ ∀ ev ∈ tr, KeysPresent s' ev := by
  obtain ⟨tr', hgo, rfl⟩ := get_channel_messages_ok_inv h
  obtain ⟨hsub, hkeys⟩ := gcmGo_keys fuel hgo
  refine ⟨hsub, ?_⟩
  intro ev hev
  rcases List.mem_cons.mp hev with rfl | hev
  · trivial
  · exact hkeys ev hev

/-- The crawl only grows the store, and its final store contains every key any
of its inserts used. -/
theorem crawlChannels_keys (fuel : Nat) :
    ∀ (remotes : List (Channel × List Message)) {s s' : Store} {tr : List Ev},
    crawlChannels fuel remotes s = .ok s' tr →
    StoreSub s s' ∧ ∀ ev ∈ tr, KeysPresent s' ev := by
  intro remotes
  induction remotes with
  | nil =>
    intro s s' tr h
    obtain ⟨rfl, rfl⟩ := crawlChannels_ok_nil_inv h
    exact ⟨StoreSub.rfl _, by simp⟩
  | cons p rest ih =>
    obtain ⟨c, hist⟩ := p
    intro s s' tr h
    obtain ⟨s2, tr₁, tr₂, hgcm, hrest, rfl⟩ := crawlChannels_ok_cons_inv h
    obtain ⟨hsub₁, hkeys₁⟩ := get_channel_messages_keys hgcm
    obtain ⟨hsub₂, hkeys₂⟩ := ih hrest
    have hsubc : StoreSub (applyEv s (Ev.insCh c)) s' := StoreSub.trans hsub₁ hsub₂
    refine ⟨StoreSub.trans (applyEv_sub s (Ev.insCh c)) hsubc, ?_⟩
    intro ev hev
    rcases List.mem_cons.mp hev with rfl | hev
    · exact keysPresent_mono hsubc (applyEv_self_keys s (Ev.insCh c))
    rcases List.mem_append.mp hev with hev | hev
    · exact keysPresent_mono hsub₂ (hkeys₁ ev hev)
    · exact hkeys₂ ev hev

/-- Running the loop from a store that already contains every key of a given
successful run reproduces the same trace and leaves the store unchanged. -/
theorem gcmGo_absorbed {cid : Nat} {fetch : Option Nat → List Message} :
    ∀ (fuel : Nat) {msgs : List Message} {s s' : Store} {tr : List Ev} (u : Store),
    gcmGo cid fetch fuel msgs s = .ok s' tr →
    (∀ ev ∈ tr, KeysPresent u ev) →
    gcmGo cid fetch fuel msgs u = .ok u tr := by
  intro fuel
  induction fuel with
  | zero =>
    intro msgs s s' tr u h hu
    rcases gcmGo_ok_inv h with ⟨rfl, rfl, rfl⟩ | ⟨_, _, _, hfe, _⟩
    · exact gcmGo_nil cid fetch 0 u
    · exact absurd hfe (by omega)
  | succ fuel ih =>
    intro msgs s s' tr u h hu
    rcases gcmGo_ok_inv h with ⟨rfl, rfl, rfl⟩ |
      ⟨lastMsg, fuel', tr', hfe, hne, hlast, hrec, rfl⟩
    · exact gcmGo_nil cid fetch (fuel + 1) u
    · have hf : fuel' = fuel := by omega
      subst hf
      have hu1 : KeysPresent u (Ev.insUs (msgs.map Message.author)) :=
        hu _ (List.mem_cons_self _ _)
      have hu2 : KeysPresent u (Ev.insMs msgs) :=
        hu _ (List.mem_cons_of_mem _ (List.mem_cons_self _ _))
      have e1abs : (insert_users u (msgs.map Message.author)).1 = u := applyEv_absorbed hu1
      have e2abs : (insert_messages u msgs).1 = u := applyEv_absorbed hu2
      have hrec' := ih u hrec (fun ev hev => hu ev
        (List.mem_cons_of_mem _ (List.mem_cons_of_mem _ (List.mem_cons_of_mem _ hev))))
      rw [gcmGo, if_neg (show ¬ msgs.isEmpty = true by rw [List.isEmpty_iff]; exact hne),
        hlast]
      simp only []
      rw [e1abs, e2abs, hrec']

/-- `get_channel_messages` version of the absorption lemma. -/
theorem get_channel_messages_absorbed {cid : Nat} {fetch : Option Nat → List Message}
    {fuel : Nat} {s s' : Store} {tr : List Ev} (u : Store)
    (h : get_channel_messages cid fetch fuel s = .ok s' tr)
    (hu : ∀ ev ∈ tr, KeysPresent u ev) :
    get_channel_messages cid fetch fuel u = .ok u tr := by
  obtain ⟨tr', hgo, rfl⟩ := get_channel_messages_ok_inv h
  have hrec' := gcmGo_absorbed fuel u hgo (fun ev hev => hu ev (List.mem_cons_of_mem _ hev))
  unfold get_channel_messages
  rw [hrec']

/-- Crawl version of the absorption lemma. -/
theorem crawlChannels_absorbed (fuel : Nat) :
    ∀ (remotes : List (Channel × List Message)) {s s' : Store} {tr : List Ev} (u : Store),
    crawlChannels fuel remotes s = .ok s' tr →
    (∀ ev ∈ tr, KeysPresent u ev) →
    crawlChannels fuel remotes u = .ok u tr := by
  intro remotes
  induction remotes with
  | nil =>
    intro s s' tr u h hu
    obtain ⟨rfl, rfl⟩ := crawlChannels_ok_nil_inv h
    rfl
  | cons p rest ih =>
    obtain ⟨c, hist⟩ := p
    intro s s' tr u h hu
    obtain ⟨s2, tr₁, tr₂, hgcm, hrest, rfl⟩ := crawlChannels_ok_cons_inv h
    have hins : (insert_channel u c).1 = u :=
      applyEv_absorbed (hu _ (List.mem_cons_self _ _))
    have hgcm' : get_channel_messages c.id (apiFetch hist) fuel u = .ok u tr₁ :=
      get_channel_messages_absorbed u hgcm
        (fun ev hev => hu ev (List.mem_cons_of_mem _ (List.mem_append_left _ hev)))
    have hrest' : crawlChannels fuel rest u = .ok u tr₂ :=
      ih u hrest (fun ev hev => hu ev (List.mem_cons_of_mem _ (List.mem_append_right _ hev)))
    unfold crawlChannels
    simp only []
    rw [hins, hgcm']
    show (match crawlChannels fuel rest u with
      | LoopOut.ok s3 tr' => LoopOut.ok s3 (Ev.insCh c :: (tr₁ ++ tr'))
      | r => r) = LoopOut.ok u (Ev.insCh c :: (tr₁ ++ tr₂))
    rw [hrest']

/-- C2: the crawl is idempotent.  A successful crawl from `s0` ending in `s1`
re-run from `s1` succeeds, adds no rows (the final store is again `s1`), and
performs exactly the same inserts and fetches; and in general any insert event
all of whose primary keys are already present is a silent no-op on the store
(no error outcome, no overwrite). -/
theorem c2_crawl_idempotent (fuel : Nat) (remotes : List (Channel × List Message))
    (s0 s1 : Store) (tr : List Ev)
    (h : crawlChannels fuel remotes s0 = .ok s1 tr) :
    crawlChannels fuel remotes s1 = .ok s1 tr
    ∧ ∀ (s : Store) (ev : Ev), KeysPresent s ev → applyEv s ev = s := by
  obtain ⟨_, hkeys⟩ := crawlChannels_keys fuel remotes h
  exact ⟨crawlChannels_absorbed fuel remotes s1 h hkeys,
    fun s ev hk => applyEv_absorbed hk⟩

/-- C2 witness: a one-channel remote with an empty history; the second run
returns the first run's store and trace unchanged. -/
theorem c2_crawl_idempotent_witness :
    crawlChannels 1 [(⟨1, none, some "general"⟩, [])] ⟨[⟨1, "", "general"⟩], [], []⟩
      = .ok ⟨[⟨1, "", "general"⟩], [], []⟩
          [Ev.insCh ⟨1, none, some "general"⟩, Ev.fetch 1 none []]
    ∧ ∀ (s : Store) (ev : Ev), KeysPresent s ev → applyEv s ev = s :=
  c2_crawl_idempotent 1 [(⟨1, none, some "general"⟩, [])] Store.empty
    ⟨[⟨1, "", "general"⟩], [], []⟩ [Ev.insCh ⟨1, none, some "general"⟩, Ev.fetch 1 none []]
    (by decide)

/-! C6: ordering invariants and referential integrity. -/

/-- Between two consecutive trace events: a page insert is immediately
preceded by the insert of exactly that page's authors. -/
def usersRel : Ev → Ev → Prop := fun e₁ e₂ =>
  ∀ p, e₂ = Ev.insMs p → e₁ = Ev.insUs (p.map Message.author)

/-- Scanner: every fetch event names a channel whose metadata row was inserted
by an earlier `insCh` event (or was in `seen` to begin with). -/
def chFetchOk (seen : List Nat) : List Ev → Bool
  | [] => true
  | Ev.insCh c :: rest => chFetchOk (c.id :: seen) rest
  | Ev.fetch cid _ _ :: rest => decide (cid ∈ seen) && chFetchOk seen rest
  | Ev.insUs _ :: rest => chFetchOk seen rest
  | Ev.insMs _ :: rest => chFetchOk seen rest

/-- Referential integrity of the store: every message row's author and channel
foreign keys resolve. -/
def refIntegrity (s : Store) : Prop :=
  ∀ m ∈ s.messageTbl,
    (∃ u ∈ s.userTbl, u.id = m.author_id) ∧ (∃ c ∈ s.channelTbl, c.id = m.channel_id)

/-- Referential integrity holds at every point of the event sequence: before
the first event, between any two events, and after the last. -/
def AllPrefixIntegrity (s : Store) : List Ev → Prop
  | [] => refIntegrity s
  | e :: rest => refIntegrity s ∧ AllPrefixIntegrity (applyEv s e) rest

theorem channelIdIn_mono {s t : Store} (hsub : StoreSub s t) {i : Nat}
    (h : ChannelIdIn s i) : ChannelIdIn t i := by
  obtain ⟨r, hr, hk⟩ := h
  exact ⟨r, hsub.1 r hr, hk⟩

/-- Integrity survives any event that does not touch the message table. -/
theorem refIntegrity_of_sub {s t : Store} (h : refIntegrity s) (hsub : StoreSub s t)
    (hmsg : t.messageTbl = s.messageTbl) : refIntegrity t := by
  intro m hm
  rw [hmsg] at hm
  obtain ⟨⟨u, hu, hku⟩, ⟨c, hc, hkc⟩⟩ := h m hm
  exact ⟨⟨u, hsub.2.1 u hu, hku⟩, ⟨c, hsub.1 c hc, hkc⟩⟩

/-- Integrity survives a batch message insert whose rows' foreign keys resolve. -/
theorem refIntegrity_insMs {s : Store} {msgs : List Message} (h : refIntegrity s)
    (hok : ∀ m ∈ msgs, UserIdIn s m.author.id ∧ ChannelIdIn s m.channel_id) :
    refIntegrity (applyEv s (Ev.insMs msgs)) := by
  intro r hr
  have hr' : r ∈ msgs.foldl (fun t m => messageInsertOrIgnore t (messageRowOf m)) s.messageTbl := hr
  rcases mem_foldl_ioi MessageRow.id messageRowOf msgs s.messageTbl r hr' with h' | ⟨m, hm, rfl⟩
  · obtain ⟨⟨u, hu, hku⟩, ⟨c, hc, hkc⟩⟩ := h r h'
    exact ⟨⟨u, hu, hku⟩, ⟨c, hc, hkc⟩⟩
  · obtain ⟨⟨u, hu, hku⟩, ⟨c, hc, hkc⟩⟩ := hok m hm
    exact ⟨⟨u, hu, hku⟩, ⟨c, hc, hkc⟩⟩

/-- Traces of the loop never insert channel metadata, and all their fetch
events name the loop's channel. -/
theorem gcmGo_trace_events {cid : Nat} {fetch : Option Nat → List Message} :
    ∀ (fuel : Nat) {msgs : List Message} {s s' : Store} {tr : List Ev},
    gcmGo cid fetch fuel msgs s = .ok s' tr →
    ∀ ev ∈ tr, (∀ c, ev ≠ Ev.insCh c) ∧ (∀ c' b pg, ev = Ev.fetch c' b pg → c' = cid) := by
  intro fuel
  induction fuel with
  | zero =>
    intro msgs s s' tr h
    rcases gcmGo_ok_inv h with ⟨_, _, rfl⟩ | ⟨_, _, _, hfe, _⟩
    · simp
    · exact absurd hfe (by omega)
  | succ fuel ih =>
    intro msgs s s' tr h
    rcases gcmGo_ok_inv h with ⟨_, _, rfl⟩ |
      ⟨lastMsg, fuel', tr', hfe, hne, hlast, hrec, rfl⟩
    · simp
    · have hf : fuel' = fuel := by omega
      subst hf
      intro ev hev
      rcases List.mem_cons.mp hev with rfl | hev
      · exact ⟨fun c => by simp, fun c' b pg h' => by simp at h'⟩
      rcases List.mem_cons.mp hev with rfl | hev
      · exact ⟨fun c => by simp, fun c' b pg h' => by simp at h'⟩
      rcases List.mem_cons.mp hev with rfl | hev
      · exact ⟨fun c => by simp, fun c' b pg h' => (Ev.fetch.inj h').1.symm⟩
      · exact ih hrec ev hev

/-- The channel scanner ignores a trace without channel inserts whose fetch
events all name channels in `seen`. -/
theorem chFetchOk_append (seen : List Nat) (k : List Ev) :
    ∀ tr, (∀ ev ∈ tr, (∀ c, ev ≠ Ev.insCh c)
        ∧ (∀ c' b pg, ev = Ev.fetch c' b pg → c' ∈ seen)) →
      chFetchOk seen (tr ++ k) = chFetchOk seen k := by
  intro tr
  induction tr with
  | nil => intro _; rfl
  | cons ev tr ih =>
    intro h
    have hev := h ev (List.mem_cons_self ev tr)
    have htl : ∀ e ∈ tr, (∀ c, e ≠ Ev.insCh c)
        ∧ (∀ c' b pg, e = Ev.fetch c' b pg → c' ∈ seen) :=
      fun e he => h e (List.mem_cons_of_mem ev he)
    cases ev with
    | insCh c => exact absurd rfl (hev.1 c)
    | insUs us => rw [List.cons_append]; show chFetchOk seen (tr ++ k) = _; exact ih htl
    | insMs ms => rw [List.cons_append]; show chFetchOk seen (tr ++ k) = _; exact ih htl
    | fetch c' b pg =>
      rw [List.cons_append]
      show (decide (c' ∈ seen) && chFetchOk seen (tr ++ k)) = chFetchOk seen k
      rw [decide_eq_true (hev.2 c' b pg rfl), Bool.true_and]
      exact ih htl

/-- Every fetch of the crawl happens after the `insCh` of its channel. -/
theorem crawlChannels_chFetch (fuel : Nat) :
    ∀ (remotes : List (Channel × List Message)) {s s' : Store} {tr : List Ev},
    crawlChannels fuel remotes s = .ok s' tr →
    ∀ seen, chFetchOk seen tr = true := by
  intro remotes
  induction remotes with
  | nil =>
    intro s s' tr h seen
    obtain ⟨rfl, rfl⟩ := crawlChannels_ok_nil_inv h
    rfl
  | cons p rest ih =>
    obtain ⟨c, hist⟩ := p
    intro s s' tr h seen
    obtain ⟨s2, tr₁, tr₂, hgcm, hrest, rfl⟩ := crawlChannels_ok_cons_inv h
    obtain ⟨gtr, hgo, rfl⟩ := get_channel_messages_ok_inv hgcm
    show chFetchOk (c.id :: seen)
      ((Ev.fetch c.id none (apiFetch hist none) :: gtr) ++ tr₂) = true
    rw [List.cons_append]
    show (decide (c.id ∈ c.id :: seen) && chFetchOk (c.id :: seen) (gtr ++ tr₂)) = true
    rw [decide_eq_true (List.mem_cons_self c.id seen), Bool.true_and]
    rw [chFetchOk_append (c.id :: seen) tr₂ gtr ?_]
    · exact ih hrest (c.id :: seen)
    · intro ev hev
      have h' := gcmGo_trace_events fuel hgo ev hev
      exact ⟨h'.1, fun c' b pg he => by
        rw [h'.2 c' b pg he]; exact List.mem_cons_self c.id seen⟩

/-- Within a loop trace, each page's author batch is inserted immediately
before the page itself, and the trace never starts with a page insert. -/
theorem gcmGo_users_chain {cid : Nat} {fetch : Option Nat → List Message} :
    ∀ (fuel : Nat) {msgs : List Message} {s s' : Store} {tr : List Ev},
    gcmGo cid fetch fuel msgs s = .ok s' tr →
    List.Chain' usersRel tr ∧ ∀ p, tr.head? ≠ some (Ev.insMs p) := by
  intro fuel
  induction fuel with
  | zero =>
    intro msgs s s' tr h
    rcases gcmGo_ok_inv h with ⟨_, _, rfl⟩ | ⟨_, _, _, hfe, _⟩
    · exact ⟨List.chain'_nil, by simp⟩
    · exact absurd hfe (by omega)
  | succ fuel ih =>
    intro msgs s s' tr h
    rcases gcmGo_ok_inv h with ⟨_, _, rfl⟩ |
      ⟨lastMsg, fuel', tr', hfe, hne, hlast, hrec, rfl⟩
    · exact ⟨List.chain'_nil, by simp⟩
    · have hf : fuel' = fuel := by omega
      subst hf
      obtain ⟨ch1, hd1⟩ := ih hrec
      refine ⟨?_, ?_⟩
      · rw [List.chain'_cons, List.chain'_cons]
        refine ⟨?_, ?_, ?_⟩
        · intro p hp
          rw [Ev.insMs.inj hp]
        · intro p hp; exact absurd hp (by simp)
        · rw [List.chain'_cons']
          refine ⟨?_, ch1⟩
          intro y hy p heq
          rw [heq] at hy
          exact ((hd1 p) (Option.mem_def.mp hy)).elim
      · intro p h'
        exact Ev.noConfusion (Option.some.inj h')

/-- The store a successful loop run ends in is the fold of its trace. -/
theorem gcmGo_fold {cid : Nat} {fetch : Option Nat → List Message} :
    ∀ (fuel : Nat) {msgs : List Message} {s s' : Store} {tr : List Ev},
    gcmGo cid fetch fuel msgs s = .ok s' tr → s' = List.foldl applyEv s tr := by
  intro fuel
  induction fuel with
  | zero =>
    intro msgs s s' tr h
    rcases gcmGo_ok_inv h with ⟨_, rfl, rfl⟩ | ⟨_, _, _, hfe, _⟩
    · rfl
    · exact absurd hfe (by omega)
  | succ fuel ih =>
    intro msgs s s' tr h
    rcases gcmGo_ok_inv h with ⟨_, rfl, rfl⟩ |
      ⟨lastMsg, fuel', tr', hfe, hne, hlast, hrec, rfl⟩
    · rfl
    · have hf : fuel' = fuel := by omega
      subst hf
      show s' = List.foldl applyEv
        ((insert_messages ((insert_users s (List.map Message.author msgs)).1) msgs).1) tr'
      exact ih hrec

/-- Integrity of every intermediate store of a loop run, given that every
fetched message belongs to the loop's channel and that channel's row exists. -/
theorem gcmGo_integrity {cid : Nat} {fetch : Option Nat → List Message}
    (hfetch : ∀ cur, ∀ m ∈ fetch cur, m.channel_id = cid) :
    ∀ (fuel : Nat) {msgs : List Message} {s s' : Store} {tr : List Ev},
    gcmGo cid fetch fuel msgs s = .ok s' tr →
    (∀ m ∈ msgs, m.channel_id = cid) →
    ChannelIdIn s cid → refIntegrity s →
    AllPrefixIntegrity s tr := by
  intro fuel
  induction fuel with
  | zero =>
    intro msgs s s' tr h hmsgs hcid hint
    rcases gcmGo_ok_inv h with ⟨_, _, rfl⟩ | ⟨_, _, _, hfe, _⟩
    · exact hint
    · exact absurd hfe (by omega)
  | succ fuel ih =>
    intro msgs s s' tr h hmsgs hcid hint
    rcases gcmGo_ok_inv h with ⟨_, _, rfl⟩ |
      ⟨lastMsg, fuel', tr', hfe, hne, hlast, hrec, rfl⟩
    · exact hint
    · have hf : fuel' = fuel := by omega
      subst hf
      have hsub1 := applyEv_sub s (Ev.insUs (msgs.map Message.author))
      have hint1 : refIntegrity (applyEv s (Ev.insUs (msgs.map Message.author))) :=
        refIntegrity_of_sub hint hsub1 rfl
      have hok : ∀ m ∈ msgs,
          UserIdIn (applyEv s (Ev.insUs (msgs.map Message.author))) m.author.id
          ∧ ChannelIdIn (applyEv s (Ev.insUs (msgs.map Message.author))) m.channel_id := by
        intro m hm
        refine ⟨?_, ?_⟩
        · exact applyEv_self_keys s (Ev.insUs (msgs.map Message.author)) m.author
            (List.mem_map_of_mem Message.author hm)
        · rw [hmsgs m hm]
          exact channelIdIn_mono hsub1 hcid
      have hint2 := refIntegrity_insMs hint1 hok
      have hsub2 := applyEv_sub
        (applyEv s (Ev.insUs (msgs.map Message.author))) (Ev.insMs msgs)
      refine ⟨hint, hint1, hint2, ?_⟩
      exact ih hrec (fun m hm => hfetch _ m hm)
        (channelIdIn_mono hsub2 (channelIdIn_mono hsub1 hcid)) hint2

/-- Prefix integrity composes along trace concatenation. -/
theorem allPrefixIntegrity_append :
    ∀ (l₁ : List Ev) {s : Store} {l₂ : List Ev},
    AllPrefixIntegrity s l₁ → AllPrefixIntegrity (List.foldl applyEv s l₁) l₂ →
    AllPrefixIntegrity s (l₁ ++ l₂) := by
  intro l₁
  induction l₁ with
  | nil =>
    intro s l₂ _ h₂
    cases l₂ with
    | nil => exact h₂
    | cons e l => exact h₂
  | cons e l ih =>
    intro s l₂ h₁ h₂
    exact ⟨h₁.1, ih h₁.2 h₂⟩

/-- The last store of a prefix-integrity chain is itself integral. -/
theorem allPrefixIntegrity_last :
    ∀ (l : List Ev) {s : Store}, AllPrefixIntegrity s l →
      refIntegrity (List.foldl applyEv s l) := by
  intro l
  induction l with
  | nil => intro s h; exact h
  | cons e l ih => intro s h; exact ih h.2

/-- Messages served by the modelled remote all come from the history. -/
theorem apiFetch_mem {hist : List Message} {cur : Option Nat} {m : Message}
    (h : m ∈ apiFetch hist cur) : m ∈ hist := by
  cases cur with
  | none => exact List.mem_of_mem_take h
  | some b => exact (List.mem_filter.mp (List.mem_of_mem_take h)).1

/-- Page-level ordering across the whole crawl: every `insMs` immediately
follows the `insUs` of its authors, and the crawl trace never begins with a
page insert. -/
theorem crawlChannels_users_chain (fuel : Nat) :
    ∀ (remotes : List (Channel × List Message)) {s s' : Store} {tr : List Ev},
    crawlChannels fuel remotes s = .ok s' tr →
    List.Chain' usersRel tr ∧ ∀ p, tr.head? ≠ some (Ev.insMs p) := by
  intro remotes
  induction remotes with
  | nil =>
    intro s s' tr h
    obtain ⟨rfl, rfl⟩ := crawlChannels_ok_nil_inv h
    exact ⟨List.chain'_nil, by simp⟩
  | cons p rest ih =>
    obtain ⟨c, hist⟩ := p
    intro s s' tr h
    obtain ⟨s2, tr₁, tr₂, hgcm, hrest, rfl⟩ := crawlChannels_ok_cons_inv h
    obtain ⟨gtr, hgo, rfl⟩ := get_channel_messages_ok_inv hgcm
    obtain ⟨ch1, hd1⟩ := gcmGo_users_chain fuel hgo
    obtain ⟨ch2, hd2⟩ := ih hrest
    rw [List.cons_append]
    refine ⟨?_, ?_⟩
    · rw [List.chain'_cons, List.chain'_cons']
      refine ⟨fun p hp => absurd hp (by simp), ?_, ?_⟩
      · intro y hy p heq
        rw [heq] at hy
        cases hgt : gtr with
        | nil =>
          rw [hgt] at hy
          exact (hd2 p (Option.mem_def.mp hy)).elim
        | cons e g' =>
          rw [hgt] at hy
          have : e = Ev.insMs p := Option.some.inj (Option.mem_def.mp hy)
          rw [hgt, this] at hd1
          exact (hd1 p rfl).elim
      · refine List.Chain'.append ch1 ch2 ?_
        intro x hx y hy p heq
        rw [heq] at hy
        exact (hd2 p (Option.mem_def.mp hy)).elim
    · intro p h'
      exact Ev.noConfusion (Option.some.inj h')

/-- Referential integrity at every point of the crawl. -/
theorem crawlChannels_integrity (fuel : Nat) :
    ∀ (remotes : List (Channel × List Message)) {s s' : Store} {tr : List Ev},
    crawlChannels fuel remotes s = .ok s' tr →
    (∀ p ∈ remotes, ∀ m ∈ p.2, m.channel_id = p.1.id) →
    refIntegrity s →
    AllPrefixIntegrity s tr := by
  intro remotes
  induction remotes with
  | nil =>
    intro s s' tr h _ hint
    obtain ⟨rfl, rfl⟩ := crawlChannels_ok_nil_inv h
    exact hint
  | cons p rest ih =>
    obtain ⟨c, hist⟩ := p
    intro s s' tr h hch hint
    obtain ⟨s2, tr₁, tr₂, hgcm, hrest, rfl⟩ := crawlChannels_ok_cons_inv h
    obtain ⟨gtr, hgo, rfl⟩ := get_channel_messages_ok_inv hgcm
    have hfetch : ∀ cur, ∀ m ∈ apiFetch hist cur, m.channel_id = c.id :=
      fun cur m hm => hch (c, hist) (List.mem_cons_self _ _) m (apiFetch_mem hm)
    have hint1 : refIntegrity (applyEv s (Ev.insCh c)) :=
      refIntegrity_of_sub hint (applyEv_sub s (Ev.insCh c)) rfl
    have hcid : ChannelIdIn (applyEv s (Ev.insCh c)) c.id :=
      applyEv_self_keys s (Ev.insCh c)
    have hAll1 : AllPrefixIntegrity (applyEv s (Ev.insCh c)) gtr :=
      gcmGo_integrity hfetch fuel hgo (fun m hm => hfetch none m hm) hcid hint1
    have hfold : s2 = List.foldl applyEv (applyEv s (Ev.insCh c)) gtr :=
      gcmGo_fold fuel hgo
    have hint2 : refIntegrity s2 := by
      rw [hfold]
      exact allPrefixIntegrity_last gtr hAll1
    have hIH : AllPrefixIntegrity s2 tr₂ :=
      ih hrest (fun q hq => hch q (List.mem_cons_of_mem _ hq)) hint2
    refine ⟨hint, ?_⟩
    show AllPrefixIntegrity (applyEv s (Ev.insCh c))
      ((Ev.fetch c.id none (apiFetch hist none) :: gtr) ++ tr₂)
    refine allPrefixIntegrity_append (Ev.fetch c.id none (apiFetch hist none) :: gtr)
      ⟨hint1, hAll1⟩ ?_
    show AllPrefixIntegrity (List.foldl applyEv (applyEv s (Ev.insCh c)) gtr) tr₂
    rw [← hfold]
    exact hIH

/-- C6: for every crawled channel the channel row is inserted before any of
its page fetches (`chFetchOk`), within every page the authors batch is
inserted immediately before the page's messages (`usersRel` chain), and hence
— given that the remote serves each channel's messages with that channel's id,
and the starting store is integral — referential integrity holds at every
point of the crawl: each persisted message's author_id and channel_id resolve
to already-inserted rows. -/
theorem c6_ordering_and_integrity (fuel : Nat) (remotes : List (Channel × List Message))
    (s0 s1 : Store) (tr : List Ev)
    (h : crawlChannels fuel remotes s0 = .ok s1 tr)
    (hch : ∀ p ∈ remotes, ∀ m ∈ p.2, m.channel_id = p.1.id)
    (hint : refIntegrity s0) :
    chFetchOk [] tr = true
    ∧ List.Chain' usersRel tr
    ∧ AllPrefixIntegrity s0 tr :=
  ⟨crawlChannels_chFetch fuel remotes h [],
   (crawlChannels_users_chain fuel remotes h).1,
   crawlChannels_integrity fuel remotes h hch hint⟩

/-- C6 witness: one channel with a one-message history. -/
theorem c6_ordering_and_integrity_witness :
    chFetchOk [] [Ev.insCh ⟨1, none, some "g"⟩,
        Ev.fetch 1 none [⟨5, 1, ⟨9, "u", "0"⟩, "hi", "t"⟩],
        Ev.insUs [⟨9, "u", "0"⟩], Ev.insMs [⟨5, 1, ⟨9, "u", "0"⟩, "hi", "t"⟩],
        Ev.fetch 1 (some 5) []] = true
    ∧ List.Chain' usersRel [Ev.insCh ⟨1, none, some "g"⟩,
        Ev.fetch 1 none [⟨5, 1, ⟨9, "u", "0"⟩, "hi", "t"⟩],
        Ev.insUs [⟨9, "u", "0"⟩], Ev.insMs [⟨5, 1, ⟨9, "u", "0"⟩, "hi", "t"⟩],
        Ev.fetch 1 (some 5) []]
    ∧ AllPrefixIntegrity Store.empty [Ev.insCh ⟨1, none, some "g"⟩,
        Ev.fetch 1 none [⟨5, 1, ⟨9, "u", "0"⟩, "hi", "t"⟩],
        Ev.insUs [⟨9, "u", "0"⟩], Ev.insMs [⟨5, 1, ⟨9, "u", "0"⟩, "hi", "t"⟩],
        Ev.fetch 1 (some 5) []] :=
  c6_ordering_and_integrity 1 [(⟨1, none, some "g"⟩, [⟨5, 1, ⟨9, "u", "0"⟩, "hi", "t"⟩])]
    Store.empty
    ⟨[⟨1, "", "g"⟩], [⟨9, "u", "0"⟩], [⟨5, 1, 9, "hi", "t"⟩]⟩
    [Ev.insCh ⟨1, none, some "g"⟩,
      Ev.fetch 1 none [⟨5, 1, ⟨9, "u", "0"⟩, "hi", "t"⟩],
      Ev.insUs [⟨9, "u", "0"⟩], Ev.insMs [⟨5, 1, ⟨9, "u", "0"⟩, "hi", "t"⟩],
      Ev.fetch 1 (some 5) []]
    (by decide) (by decide) (by intro m hm; simp [Store.empty] at hm)

/-! C1: fetch counting over a strictly descending history. -/

/-- A `getLast?` value is a member of its list. -/
theorem mem_of_getLast?_eq {α : Type} :
    ∀ {l : List α} {x : α}, l.getLast? = some x → x ∈ l := by
  intro l
  induction l with
  | nil => intro x h; simp at h
  | cons a t ih =>
    intro x h
    match t with
    | [] =>
      have : x = a := by simpa using h.symm
      simp [this]
    | c :: cs =>
      rw [List.getLast?_cons_cons] at h
      exact List.mem_cons_of_mem a (ih h)

/-- In a strictly descending list, the last element of the first `k + 1`
entries splits the list: strictly smaller ids are exactly the entries from
position `k + 1` on. -/
theorem sorted_filter_lt_getLast :
    ∀ (r : List Message), r.Pairwise (fun a b => b.id < a.id) →
    ∀ (k : Nat) (b : Message), (r.take (k + 1)).getLast? = some b →
    r.filter (fun m => m.id < b.id) = r.drop (k + 1) := by
  intro r
  induction r with
  | nil => intro _ k b h; simp at h
  | cons a t ih =>
    intro hp k b hb
    rw [List.take_succ_cons] at hb
    match ht : t.take k with
    | [] =>
      rw [ht] at hb
      have hba : b = a := by simpa using hb.symm
      subst hba
      rcases List.take_eq_nil_iff.mp ht with hk | htnil
      · subst hk
        rw [List.filter_cons, if_neg (by simp)]
        show t.filter (fun m => m.id < b.id) = t
        rw [List.filter_eq_self]
        intro m hm
        exact decide_eq_true ((List.pairwise_cons.mp hp).1 m hm)
      · subst htnil
        rw [List.filter_cons, if_neg (by simp)]
        simp
    | c :: cs =>
      rw [ht, List.getLast?_cons_cons] at hb
      have hbt : b ∈ t := List.mem_of_mem_take (ht ▸ mem_of_getLast?_eq hb)
      have hba : b.id < a.id := (List.pairwise_cons.mp hp).1 b hbt
      match k with
      | 0 => rw [List.take_eq_nil_iff.mpr (Or.inl rfl)] at ht; exact absurd ht.symm (by simp)
      | k' + 1 =>
        rw [List.filter_cons, if_neg (by simp; omega)]
        show t.filter (fun m => m.id < b.id) = t.drop (k' + 1)
        exact ih (List.pairwise_cons.mp hp).2 k' b (by rw [ht]; exact hb)

/-- Filtering can skip a prefix on which the predicate is everywhere false. -/
theorem filter_drop_of_take_false {α : Type} (p : α → Bool) (n : Nat) :
    ∀ (l : List α), (∀ x ∈ l.take n, p x = false) →
      l.filter p = (l.drop n).filter p := by
  intro l h
  conv_lhs => rw [← List.take_append_drop n l]
  rw [List.filter_append, List.filter_eq_nil_iff.mpr (fun a ha => by rw [h a ha]; simp),
    List.nil_append]

theorem numPages_zero : numPages 0 = 0 := by unfold numPages; omega

theorem numPages_eq_zero {n : Nat} (h : numPages n = 0) : n = 0 := by
  unfold numPages at h; omega

theorem numPages_drop (n : Nat) (h : 0 < n) : numPages (n - 100) = numPages n - 1 := by
  unfold numPages; omega

theorem numPages_pos {n : Nat} (h : 0 < n) : 0 < numPages n := by
  unfold numPages; omega

/-- Main pagination-count lemma.  If the remaining history `r` is strictly
descending and agrees with the full history below any of its elements, the
loop succeeds with `numPages r.length` further fetches, the last of which
returns an empty page. -/
theorem gcmGo_pages_count {cid : Nat} {hist : List Message} :
    ∀ (fuel : Nat) (r : List Message) (s : Store),
    r.Pairwise (fun a b => b.id < a.id) →
    (∀ b ∈ r, hist.filter (fun m => m.id < b.id) = r.filter (fun m => m.id < b.id)) →
    numPages r.length ≤ fuel →
    ∃ s' tr, gcmGo cid (apiFetch hist) fuel (r.take 100) s = .ok s' tr
      ∧ (fetchPages tr).length = numPages r.length
      ∧ (r = [] → tr = [])
      ∧ (r ≠ [] → (fetchPages tr).getLast? = some []) := by
  intro fuel
  induction fuel with
  | zero =>
    intro r s hp hinv hfuel
    have hr : r = [] := by
      have := numPages_eq_zero (Nat.le_zero.mp hfuel)
      exact List.length_eq_zero.mp this
    subst hr
    exact ⟨s, [], gcmGo_nil cid (apiFetch hist) 0 s, by simp [numPages_zero],
      fun _ => rfl, fun h => absurd rfl h⟩
  | succ fuel ih =>
    intro r s hp hinv hfuel
    by_cases hr : r = []
    · subst hr
      exact ⟨s, [], gcmGo_nil cid (apiFetch hist) (fuel + 1) s, by simp [numPages_zero],
        fun _ => rfl, fun h => absurd rfl h⟩
    · have h100 : r.take 100 ≠ [] := by
        rw [Ne, List.take_eq_nil_iff]
        push_neg
        exact ⟨by omega, hr⟩
      match hgl : (r.take 100).getLast? with
      | none => exact absurd (List.getLast?_eq_none_iff.mp hgl) h100
      | some b =>
        have hbmem : b ∈ r := List.mem_of_mem_take (mem_of_getLast?_eq hgl)
        have hkey : apiFetch hist (some b.id) = (r.drop 100).take 100 := by
          show (hist.filter (fun m => m.id < b.id)).take 100 = _
          rw [hinv b hbmem, sorted_filter_lt_getLast r hp 99 b hgl]
        have hp' : (r.drop 100).Pairwise (fun a b => b.id < a.id) :=
          List.Pairwise.sublist (List.drop_sublist 100 r) hp
        have hinv' : ∀ b' ∈ r.drop 100,
            hist.filter (fun m => m.id < b'.id) = (r.drop 100).filter (fun m => m.id < b'.id) := by
          intro b' hb'
          rw [hinv b' (List.mem_of_mem_drop hb')]
          refine filter_drop_of_take_false _ 100 r ?_
          intro x hx
          have hpa := List.pairwise_append.mp (by rw [List.take_append_drop 100 r]; exact hp)
          have := hpa.2.2 x hx b' hb'
          simp only [decide_eq_false_iff_not]
          omega
        have hfuel' : numPages (r.drop 100).length ≤ fuel := by
          rw [List.length_drop, numPages_drop r.length (List.length_pos.mpr hr)]
          have := numPages_pos (List.length_pos.mpr hr)
          omega
        obtain ⟨s'', tr', hrec, hlen, hnil, hlast⟩ :=
          ih (r.drop 100)
            ((insert_messages ((insert_users s ((r.take 100).map Message.author)).1)
              (r.take 100)).1)
            hp' hinv' hfuel'
        refine ⟨s'', Ev.insUs ((r.take 100).map Message.author) :: Ev.insMs (r.take 100)
          :: Ev.fetch cid (some b.id) ((r.drop 100).take 100) :: tr', ?_, ?_, ?_, ?_⟩
        · rw [gcmGo, if_neg (by rw [List.isEmpty_iff]; exact h100), hgl]
          simp only []
          rw [hkey, hrec]
        · rw [fetchPages_cons_insUs, fetchPages_cons_insMs, fetchPages_cons_fetch,
            List.length_cons, hlen, List.length_drop,
            numPages_drop r.length (List.length_pos.mpr hr)]
          have := numPages_pos (List.length_pos.mpr hr)
          omega
        · intro h'; exact absurd h' hr
        · intro _
          rw [fetchPages_cons_insUs, fetchPages_cons_insMs, fetchPages_cons_fetch]
          by_cases hdrop : r.drop 100 = []
          · rw [hnil hdrop, hdrop]
            simp
          · have hlast' := hlast hdrop
            match hfp : fetchPages tr' with
            | [] =>
              rw [hfp] at hlast'
              simp at hlast'
            | q :: qs =>
              rw [hfp] at hlast'
              rw [List.getLast?_cons_cons]
              exact hlast'

/-- C1: over a strictly descending `N`-message history, `get_channel_messages`
terminates normally after exactly `numPages N + 1 = ⌈N/100⌉ + 1` page fetches,
the last of which returns the empty page; for `N = k * 100` that is exactly
`k + 1` fetches. -/
theorem c1_pagination_count (hist : List Message) (cid fuel : Nat) (s : Store)
    (hsort : hist.Pairwise (fun a b => b.id < a.id))
    (hfuel : numPages hist.length ≤ fuel) :
    ∃ s' tr, get_channel_messages cid (apiFetch hist) fuel s = .ok s' tr
      ∧ (fetchPages tr).length = numPages hist.length + 1
      ∧ (fetchPages tr).getLast? = some []
      ∧ ∀ k, hist.length = k * 100 → (fetchPages tr).length = k + 1 := by
  obtain ⟨s', tr', hrun, hlen, hnil, hlast⟩ :=
    gcmGo_pages_count fuel hist s hsort (fun b _ => rfl) hfuel
  refine ⟨s', Ev.fetch cid none (apiFetch hist none) :: tr', ?_, ?_, ?_, ?_⟩
  · unfold get_channel_messages
    rw [show apiFetch hist none = hist.take 100 from rfl, hrun]
  · rw [fetchPages_cons_fetch, List.length_cons, hlen]
  · by_cases hh : hist = []
    · subst hh
      rw [hnil rfl]
      simp [apiFetch]
    · rw [fetchPages_cons_fetch]
      have hlast' := hlast hh
      match hfp : fetchPages tr' with
      | [] =>
        rw [hfp] at hlast'
        simp at hlast'
      | q :: qs =>
        rw [hfp] at hlast'
        rw [List.getLast?_cons_cons]
        exact hlast'
  · intro k hk
    rw [fetchPages_cons_fetch, List.length_cons, hlen, hk]
    have : numPages (k * 100) = k := by unfold numPages; omega
    rw [this]

/-- C1 witness: a two-message history needs one full page plus the empty
fetch. -/
theorem c1_pagination_count_witness :
    ∃ s' tr, get_channel_messages 42
        (apiFetch [⟨2, 42, ⟨9, "u", "0"⟩, "b", "t2"⟩, ⟨1, 42, ⟨9, "u", "0"⟩, "a", "t1"⟩]) 1
        Store.empty = .ok s' tr
      ∧ (fetchPages tr).length = numPages
          ([⟨2, 42, ⟨9, "u", "0"⟩, "b", "t2"⟩,
            (⟨1, 42, ⟨9, "u", "0"⟩, "a", "t1"⟩ : Message)]).length + 1
      ∧ (fetchPages tr).getLast? = some []
      ∧ ∀ k, ([⟨2, 42, ⟨9, "u", "0"⟩, "b", "t2"⟩,
            (⟨1, 42, ⟨9, "u", "0"⟩, "a", "t1"⟩ : Message)]).length = k * 100 →
          (fetchPages tr).length = k + 1 :=
  c1_pagination_count
    [⟨2, 42, ⟨9, "u", "0"⟩, "b", "t2"⟩, ⟨1, 42, ⟨9, "u", "0"⟩, "a", "t1"⟩]
    42 1 Store.empty (by decide) (by decide)

/-! C7: cursor monotonicity under the API's ordering guarantees. -/

/-- In a strictly descending (newest-first) list, the last entry has the
smallest id. -/
theorem sorted_getLast?_min :
    ∀ (l : List Message), l.Pairwise (fun a b => b.id < a.id) →
    ∀ x, l.getLast? = some x → ∀ y ∈ l, x.id ≤ y.id := by
  intro l
  induction l with
  | nil => intro _ x h; simp at h
  | cons a t ih =>
    intro hp x hx y hy
    cases t with
    | nil =>
      have hxa : x = a := by simpa using hx.symm
      have hya : y = a := by simpa using hy
      rw [hxa, hya]
    | cons c cs =>
      rw [List.getLast?_cons_cons] at hx
      have hxt : x ∈ c :: cs := mem_of_getLast?_eq hx
      rcases List.mem_cons.mp hy with rfl | hy
      · exact le_of_lt ((List.pairwise_cons.mp hp).1 x hxt)
      · exact ih (List.pairwise_cons.mp hp).2 x hx y hy

/-- Loop-level cursor monotonicity: under the assumptions that a cursored
fetch returns only strictly older messages and that pages come newest-first,
consecutive pages are strictly separated and cursors strictly decrease. -/
theorem gcmGo_cursor_mono {cid : Nat} {fetch : Option Nat → List Message}
    (hb : ∀ b, ∀ m ∈ fetch (some b), m.id < b)
    (hsorted : ∀ cur, (fetch cur).Pairwise (fun a b => b.id < a.id)) :
    ∀ (fuel : Nat) {msgs : List Message} {s s' : Store} {tr : List Ev},
    gcmGo cid fetch fuel msgs s = .ok s' tr →
    msgs.Pairwise (fun a b => b.id < a.id) →
    List.Chain' (fun p q => ∀ mq ∈ q, ∀ mp ∈ p, mq.id < mp.id) (pagesOf tr)
    ∧ List.Chain' (fun a b => b < a) (cursorsOf tr)
    ∧ (pagesOf tr).head? = (if msgs.isEmpty then none else some msgs)
    ∧ (cursorsOf tr).head? = (msgs.getLast?).map Message.id := by
  intro fuel
  induction fuel with
  | zero =>
    intro msgs s s' tr h hm
    rcases gcmGo_ok_inv h with ⟨rfl, _, rfl⟩ | ⟨_, _, _, hfe, _⟩
    · exact ⟨List.chain'_nil, List.chain'_nil, by simp, by simp⟩
    · exact absurd hfe (by omega)
  | succ fuel ih =>
    intro msgs s s' tr h hm
    rcases gcmGo_ok_inv h with ⟨rfl, _, rfl⟩ |
      ⟨lastMsg, fuel', tr', hfe, hne, hlast, hrec, rfl⟩
    · exact ⟨List.chain'_nil, List.chain'_nil, by simp, by simp⟩
    · have hf : fuel' = fuel := by omega
      subst hf
      obtain ⟨cp, cc, hdp, hdc⟩ := ih hrec (hsorted (some lastMsg.id))
      have hmin : ∀ y ∈ msgs, lastMsg.id ≤ y.id :=
        sorted_getLast?_min msgs hm lastMsg hlast
      refine ⟨?_, ?_, ?_, ?_⟩
      · rw [pagesOf_cons_insUs, pagesOf_cons_insMs, pagesOf_cons_fetch,
          List.chain'_cons']
        refine ⟨?_, cp⟩
        intro q hq mq hmq mp hmp
        rw [hdp] at hq
        by_cases hemp : (fetch (some lastMsg.id)).isEmpty
        · rw [if_pos hemp] at hq
          simp at hq
        · rw [if_neg hemp] at hq
          have hq' : q = fetch (some lastMsg.id) := (Option.some.inj (Option.mem_def.mp hq)).symm
          subst hq'
          have h1 : mq.id < lastMsg.id := hb lastMsg.id mq hmq
          have h2 : lastMsg.id ≤ mp.id := hmin mp hmp
          omega
      · rw [cursorsOf_cons_insUs, cursorsOf_cons_insMs, cursorsOf_cons_fetch_some,
          List.chain'_cons']
        refine ⟨?_, cc⟩
        intro y hy
        rw [hdc] at hy
        match hgl : (fetch (some lastMsg.id)).getLast? with
        | none => rw [hgl] at hy; simp at hy
        | some m =>
          rw [hgl] at hy
          have hym : m.id = y := by simpa using Option.mem_def.mp hy
          subst hym
          exact hb lastMsg.id m (mem_of_getLast?_eq hgl)
      · rw [pagesOf_cons_insUs, pagesOf_cons_insMs, List.head?_cons,
          if_neg (by rw [List.isEmpty_iff]; exact hne)]
      · rw [cursorsOf_cons_insUs, cursorsOf_cons_insMs, cursorsOf_cons_fetch_some,
          List.head?_cons, hlast]
        rfl

/-- C7: assuming each cursored fetch returns only messages strictly older than
its cursor and pages are newest-first, every successful run has strictly
separated consecutive pages (each id of page `n+1` is older than the oldest —
indeed every — id of page `n`), strictly decreasing cursors, and never reuses
a `before` cursor. -/
theorem c7_cursor_monotonic (cid fuel : Nat) (s s' : Store)
    (fetch : Option Nat → List Message) (tr : List Ev)
    (hb : ∀ b, ∀ m ∈ fetch (some b), m.id < b)
    (hsorted : ∀ cur, (fetch cur).Pairwise (fun a b => b.id < a.id))
    (hrun : get_channel_messages cid fetch fuel s = .ok s' tr) :
    List.Chain' (fun p q => ∀ mq ∈ q, ∀ mp ∈ p, mq.id < mp.id) (pagesOf tr)
    ∧ List.Chain' (fun a b => b < a) (cursorsOf tr)
    ∧ (cursorsOf tr).Nodup := by
  obtain ⟨tr', hgo, rfl⟩ := get_channel_messages_ok_inv hrun
  obtain ⟨cp, cc, _, _⟩ := gcmGo_cursor_mono hb hsorted fuel hgo (hsorted none)
  rw [pagesOf_cons_fetch, cursorsOf_cons_fetch_none]
  refine ⟨cp, cc, ?_⟩
  have hpw : (cursorsOf tr').Pairwise (fun a b => b < a) :=
    List.chain'_iff_pairwise.mp cc
  exact hpw.imp (fun h => (ne_of_gt h))

/-- C7 witness: the concrete remote `apiFetch` over a two-message history
satisfies both assumptions, and the run's cursors are `[1]`. -/
theorem c7_cursor_monotonic_witness :
    List.Chain' (fun p q => ∀ mq ∈ q, ∀ mp ∈ p, mq.id < mp.id)
      (pagesOf [Ev.fetch 42 none [⟨2, 42, ⟨9, "u", "0"⟩, "b", "t2"⟩,
          ⟨1, 42, ⟨9, "u", "0"⟩, "a", "t1"⟩],
        Ev.insUs [⟨9, "u", "0"⟩, ⟨9, "u", "0"⟩],
        Ev.insMs [⟨2, 42, ⟨9, "u", "0"⟩, "b", "t2"⟩, ⟨1, 42, ⟨9, "u", "0"⟩, "a", "t1"⟩],
        Ev.fetch 42 (some 1) []])
    ∧ List.Chain' (fun a b => b < a)
      (cursorsOf [Ev.fetch 42 none [⟨2, 42, ⟨9, "u", "0"⟩, "b", "t2"⟩,
          ⟨1, 42, ⟨9, "u", "0"⟩, "a", "t1"⟩],
        Ev.insUs [⟨9, "u", "0"⟩, ⟨9, "u", "0"⟩],
        Ev.insMs [⟨2, 42, ⟨9, "u", "0"⟩, "b", "t2"⟩, ⟨1, 42, ⟨9, "u", "0"⟩, "a", "t1"⟩],
        Ev.fetch 42 (some 1) []])
    ∧ (cursorsOf [Ev.fetch 42 none [⟨2, 42, ⟨9, "u", "0"⟩, "b", "t2"⟩,
          ⟨1, 42, ⟨9, "u", "0"⟩, "a", "t1"⟩],
        Ev.insUs [⟨9, "u", "0"⟩, ⟨9, "u", "0"⟩],
        Ev.insMs [⟨2, 42, ⟨9, "u", "0"⟩, "b", "t2"⟩, ⟨1, 42, ⟨9, "u", "0"⟩, "a", "t1"⟩],
        Ev.fetch 42 (some 1) []]).Nodup :=
  c7_cursor_monotonic 42 1 Store.empty
    ⟨[], [⟨9, "u", "0"⟩], [⟨2, 42, 9, "b", "t2"⟩, ⟨1, 42, 9, "a", "t1"⟩]⟩
    (apiFetch [⟨2, 42, ⟨9, "u", "0"⟩, "b", "t2"⟩, ⟨1, 42, ⟨9, "u", "0"⟩, "a", "t1"⟩])
    [Ev.fetch 42 none [⟨2, 42, ⟨9, "u", "0"⟩, "b", "t2"⟩,
        ⟨1, 42, ⟨9, "u", "0"⟩, "a", "t1"⟩],
      Ev.insUs [⟨9, "u", "0"⟩, ⟨9, "u", "0"⟩],
      Ev.insMs [⟨2, 42, ⟨9, "u", "0"⟩, "b", "t2"⟩, ⟨1, 42, ⟨9, "u", "0"⟩, "a", "t1"⟩],
      Ev.fetch 42 (some 1) []]
    (fun b m hm => of_decide_eq_true (List.mem_filter.mp (List.mem_of_mem_take hm)).2)
    (fun cur => by
      cases cur with
      | none =>
        exact List.Pairwise.sublist (List.take_sublist 100 _) (by decide)
      | some b =>
        exact List.Pairwise.sublist (List.take_sublist 100 _)
          (List.Pairwise.filter _ (by decide)))
    (by decide)

end DiscordScraper
